import Mathlib

/-!
Verification development for the VoteKit election-tabulation core.

Shallow embedding of `src/votekit/profile.py`, `src/votekit/election_types.py`
and `src/votekit/ballot_generator.py`.

Conventions of the embedding:
* Python `fractions.Fraction` vote weights are exact rationals (`ℚ`).
* A Python candidate set (`set[str]`, one ranking position) is represented by
  the list of its elements (`List String`); a duplicate-free list stands for
  the set of its members.  The source only ever compares a position against a
  singleton set `{cand}`, which corresponds to comparing against `[cand]`.
* Python dictionaries that the algorithms read back out are represented by
  insertion-ordered association lists, or by total functions defaulting to `0`
  where only the stored values matter.
* `random.choice(lst)` / `random.randint` draw from an explicit stream of
  naturals (`List ℕ`), one draw per call, reduced modulo the relevant length;
  this makes every run a pure function of the seed stream.
* Fallible Python code (raised exceptions) is embedded with `Except PyErr`.
-/

namespace VoteKit

/-- Error values standing for the exceptions the source can raise. -/
inductive PyErr where
  | zeroDivision
  | stopIteration
  | indexError
  | valueError
  | fuelOut
  | noState
deriving DecidableEq

/-- `votekit.ballot.Ballot` (file not in `src/`).  Modelled from the spec:
"a ranked/partially-ranked list of candidate-groups plus a rational weight";
the provenance fields `id`/`voters` carry no algorithmic content and are
omitted. -/
structure Ballot where
  ranking : List (List String)
  weight : ℚ
deriving DecidableEq

/-- `PreferenceProfile` from `profile.py`: a list of ballots and an optional
explicit candidate list (the display `DataFrame` field is presentation-only
and omitted). -/
structure PreferenceProfile where
  ballots : List Ballot
  candidates : Option (List String) := none
deriving DecidableEq

/-- `PreferenceProfile.get_candidates`: the explicit list if provided, else the
union of all ranked candidates (Python builds a `set`; we deduplicate the
concatenation — the Python iteration order of that set is unspecified). -/
def get_candidates (p : PreferenceProfile) : List String :=
  match p.candidates with
  | some cs => cs
  | none => ((p.ballots.map (fun b => b.ranking.flatten)).flatten).dedup

/-- `PreferenceProfile.num_ballots`: total ballot weight. -/
def num_ballots (p : PreferenceProfile) : ℚ :=
  p.ballots.foldl (fun acc b => acc + b.weight) 0

/-- One Python-dict update `di[k] = di.get(k, 0) + v` on an insertion-ordered
association list. -/
def dict_add (acc : List (List String × ℚ)) (k : List String) (v : ℚ) :
    List (List String × ℚ) :=
  if acc.any (fun p => p.1 = k) then
    acc.map (fun p => if p.1 = k then (p.1, p.2 + v) else p)
  else acc ++ [(k, v)]

/-- `tuple(next(iter(item)) for item in ballot.ranking)` from
`PreferenceProfile.to_dict`; `next(iter(∅))` raises `StopIteration`. -/
def rank_tuple : List (List String) → Except PyErr (List String)
  | [] => .ok []
  | pos :: rest =>
    match pos.head? with
    | none => .error .stopIteration
    | some c =>
      match rank_tuple rest with
      | .ok cs => .ok (c :: cs)
      | .error e => .error e

/-- The loop body of `PreferenceProfile.to_dict`; a standardized weight
`ballot.weight / num_ballots` raises `ZeroDivisionError` when the total
weight is zero. -/
def to_dict_aux (standardize : Bool) (total : ℚ) :
    List Ballot → List (List String × ℚ) → Except PyErr (List (List String × ℚ))
  | [], acc => .ok acc
  | b :: rest, acc =>
    match rank_tuple b.ranking with
    | .error e => .error e
    | .ok key =>
      if standardize then
        if total = 0 then .error .zeroDivision
        else to_dict_aux standardize total rest (dict_add acc key (b.weight / total))
      else to_dict_aux standardize total rest (dict_add acc key b.weight)

/-- `PreferenceProfile.to_dict`. -/
def to_dict (p : PreferenceProfile) (standardize : Bool) :
    Except PyErr (List (List String × ℚ)) :=
  to_dict_aux standardize (num_ballots p) p.ballots []

/-! ### Election helper functions (`election_types.py`) -/

/-- The inner loop of `compute_votes`: sum the weights of the ballots whose
first ranking position is exactly the singleton `{candidate}`
(`ballot.ranking and ballot.ranking[0] == {candidate}`). -/
def firstPlaceTally (c : String) (ballots : List Ballot) : ℚ :=
  ballots.foldl (fun w b => if b.ranking.head? = some [c] then w + b.weight else w) 0

/-- Stable insertion of one `(candidate, votes)` pair into a list sorted by
votes descending: skip entries with strictly more votes, so ties keep their
original (insertion) order, as Python's stable `sorted(..., reverse=True)`. -/
def insertDesc (x : String × ℚ) : List (String × ℚ) → List (String × ℚ)
  | [] => [x]
  | y :: ys => if y.2 > x.2 then y :: insertDesc x ys else x :: y :: ys

/-- Stable sort by votes descending. -/
def sortDesc (l : List (String × ℚ)) : List (String × ℚ) := l.foldr insertDesc []

/-- `compute_votes`: first-place tallies for all candidates, ordered by votes
descending (the `votes` dict preserves the candidate-list order; `sorted` is
stable). -/
def compute_votes (candidates : List String) (ballots : List Ballot) :
    List (String × ℚ) :=
  sortDesc (candidates.map (fun c => (c, firstPlaceTally c ballots)))

/-- `remove_cand`: drop every ranking position equal to the singleton
`{removed_cand}` from every ballot (a tied position containing the candidate
is left untouched by the source). -/
def remove_cand (removed_cand : String) (ballots : List Ballot) : List Ballot :=
  ballots.map (fun b =>
    { b with ranking := b.ranking.filter (fun pos => pos ≠ [removed_cand]) })

/-- The type of vote-transfer strategies (`transfer` callables): winner,
ballots, the first-place-votes dict, threshold. -/
abbrev Transfer := String → List Ballot → (String → ℚ) → ℤ → List Ballot

/-- `fractional_transfer`: scale the ballots crediting the winner by
`(votes[winner] - threshold) / votes[winner]`, then strip the winner.
(The source mutates the shared ballots in place; the embedding builds the
resulting ballot list.) -/
def fractional_transfer : Transfer := fun winner ballots votes threshold =>
  let transfer_value := (votes winner - (threshold : ℚ)) / votes winner
  let scaled := ballots.map (fun b =>
    if b.ranking.head? = some [winner] then
      { b with weight := b.weight * transfer_value }
    else b)
  remove_cand winner scaled

/-- `seqRCV_transfer`: no-op transfer. -/
def seqRCV_transfer : Transfer := fun _ ballots _ _ => ballots

/-! ### ElectionState (`election_state.py`, not in `src/`)

Modelled from the spec: an `ElectionState` is "an immutable, singly-linked
snapshot of one tabulation round, forming a history chain back to round 0";
we represent the chain as the current record plus the list of its ancestors
(newest first). -/

/-- One round snapshot. -/
structure ESRec where
  curr_round : ℕ
  elected : List String
  eliminated : List String
  remaining : List String
  profile : List Ballot
deriving DecidableEq

/-- Modelled from the spec: `ElectionState.get_all_winners` walks the ancestor
chain and returns the cumulative elected candidates, oldest round first (as
exercised by `tests/test_election_state.py`). The chain list is newest
first. -/
def allWinners (chain : List ESRec) : List String :=
  ((chain.reverse).map (·.elected)).flatten

/-- Modelled from the spec: `ElectionState.get_all_eliminated`, newest round
first. -/
def allEliminated (chain : List ESRec) : List String :=
  (chain.map (·.eliminated)).flatten

/-! ### STV -/

/-- Python `int(q)` on a `Fraction`: truncation toward zero. -/
def pyInt (q : ℚ) : ℤ := q.num.tdiv q.den

/-- ASCII lower-casing of one character (`str.lower` on the quota strings). -/
def lowerChar (c : Char) : Char :=
  if ('A' ≤ c ∧ c ≤ 'Z') then Char.ofNat (c.toNat + 32) else c

/-- `str.lower()` (ASCII). -/
def pyLower (s : String) : String := ⟨s.data.map lowerChar⟩

/-- `STV.get_threshold`: Droop `int(num_ballots/(seats+1) + 1)` or Hare
`int(num_ballots/seats)`, else `ValueError`. -/
def get_threshold (numBallots : ℚ) (seats : ℕ) (quota : String) : Except PyErr ℤ :=
  let q := pyLower quota
  if q = "droop" then .ok (pyInt (numBallots / ((seats : ℚ) + 1) + 1))
  else if q = "hare" then .ok (pyInt (numBallots / (seats : ℚ)))
  else .error .valueError

/-- The round-0 state built by `STV.__init__`. -/
def stv_init_state (profile : PreferenceProfile) : ESRec :=
  { curr_round := 0
    elected := []
    eliminated := []
    remaining := (compute_votes (get_candidates profile) profile.ballots).map (·.1)
    profile := profile.ballots }

/-- The `for candidate, votes in fp_votes` loop of `STV.run_step`'s election
branch: elect every candidate whose votes reach the threshold, remove each
from `remaining` and apply the transfer. -/
def electAll (transfer : Transfer) (votesMap : String → ℚ) (threshold : ℤ) :
    List (String × ℚ) → List String → List String → List Ballot →
    List String × List String × List Ballot
  | [], elected, remaining, ballots => (elected, remaining, ballots)
  | (c, v) :: rest, elected, remaining, ballots =>
    if v ≥ (threshold : ℚ) then
      electAll transfer votesMap threshold rest (elected ++ [c]) (remaining.erase c)
        (transfer c ballots votesMap threshold)
    else
      electAll transfer votesMap threshold rest elected remaining ballots

/-- `STV.run_step`.  Branches, in source order:
1. all remaining fit in the open seats → elect them all;
2. otherwise `fp_votes[0]` is read (IndexError on an empty tally list) and if
   it reaches the threshold every candidate at or above it is elected;
3. otherwise, if the election is not over, the (random) minimum-tally
   candidate is eliminated and stripped from the ballots;
4. otherwise nothing changes.
Returns the new round record; the caller extends the chain. -/
def run_step (transfer : Transfer) (seats : ℕ) (threshold : ℤ)
    (cur : ESRec) (hist : List ESRec) (rng : List ℕ) :
    Except PyErr (ESRec × List ℕ) :=
  let remaining := cur.remaining
  let ballots := cur.profile
  let fp_votes := compute_votes remaining ballots
  let winners := allWinners (cur :: hist)
  if (remaining.length : ℤ) = (seats : ℤ) - (winners.length : ℤ) then
    .ok ({ curr_round := cur.curr_round + 1, elected := fp_votes.map (·.1),
           eliminated := [], remaining := [], profile := [] }, rng)
  else
    match fp_votes with
    | [] => .error .indexError
    | (_, v0) :: rest =>
      if v0 ≥ (threshold : ℚ) then
        let votesMap := fun c => (((fp_votes.find? (fun p => p.1 = c)).map (·.2)).getD 0)
        let r := electAll transfer votesMap threshold fp_votes [] remaining ballots
        .ok ({ curr_round := cur.curr_round + 1, elected := r.1, eliminated := [],
               remaining := r.2.1, profile := r.2.2 }, rng)
      else if winners.length ≠ seats then
        let lp_votes := rest.foldl (fun m p => min m p.2) v0
        let lp_candidates := (fp_votes.filter (fun p => p.2 = lp_votes)).map (·.1)
        let lp_cand := lp_candidates.getD ((rng.headD 0) % lp_candidates.length) ""
        .ok ({ curr_round := cur.curr_round + 1, elected := [], eliminated := [lp_cand],
               remaining := remaining.erase lp_cand,
               profile := remove_cand lp_cand ballots }, rng.tail)
      else
        .ok ({ curr_round := cur.curr_round + 1, elected := [], eliminated := [],
               remaining := remaining, profile := ballots }, rng)

/-- Iterate `run_step` a fixed number of rounds, growing the chain. -/
def run_steps (transfer : Transfer) (seats : ℕ) (threshold : ℤ) :
    ℕ → ESRec → List ESRec → List ℕ → Except PyErr (ESRec × List ESRec × List ℕ)
  | 0, cur, hist, rng => .ok (cur, hist, rng)
  | n + 1, cur, hist, rng =>
    match run_step transfer seats threshold cur hist rng with
    | .ok (nw, rng2) => run_steps transfer seats threshold n nw (cur :: hist) rng2
    | .error e => .error e

/-- The `while self.next_round(): self.run_step()` loop of `run_election`,
with an explicit iteration bound (`fuelOut` marks bound exhaustion; the source
loop is unbounded). -/
def run_election_aux (transfer : Transfer) (seats : ℕ) (threshold : ℤ) :
    ℕ → ESRec → List ESRec → List ℕ → Except PyErr (ESRec × List ESRec)
  | 0, _, _, _ => .error .fuelOut
  | n + 1, cur, hist, rng =>
    if (allWinners (cur :: hist)).length ≠ seats then
      match run_step transfer seats threshold cur hist rng with
      | .ok (nw, rng2) => run_election_aux transfer seats threshold n nw (cur :: hist) rng2
      | .error e => .error e
    else .ok (cur, hist)

/-- `STV.run_election`: `ValueError` when the elected set already fills the
seats at entry, else run rounds until the seat count is reached.  The bound
`remaining + 2` is shown (theorem for C6) never to be the reason the loop
stops. -/
def run_election (transfer : Transfer) (seats : ℕ) (threshold : ℤ)
    (profile : PreferenceProfile) (rng : List ℕ) : Except PyErr (ESRec × List ESRec) :=
  let cur := stv_init_state profile
  if (allWinners [cur]).length = seats then .error .valueError
  else run_election_aux transfer seats threshold (cur.remaining.length + 2) cur [] rng

/-! ### Borda (`Borda.__init__` / `run_borda_step`)

The score dictionary is embedded as a total function `List String → ℚ`
defaulting to `0` (the source initialises missing keys to `0` before adding).
Keys: a ranked position contributes under the key `str(position-set)`, an
unranked candidate `c` under `str(set(c))`; for the singleton positions the
claims are about, both correspond to the key `[c]`. -/

/-- Default Borda weights `[n, n-1, ..., 1]`
(`[i for i in range(self.num_cands, 0, -1)]`). -/
def borda_default_weights (num_cands : ℕ) : List ℤ :=
  (List.range num_cands).map (fun i : ℕ => (num_cands : ℤ) - (i : ℤ))

/-- `borda_scores[k] = borda_scores.get(k, 0) + v` as a function update. -/
def score_add (f : List String → ℚ) (k : List String) (v : ℚ) : List String → ℚ :=
  fun k2 => if k2 = k then f k2 + v else f k2

/-- The score increments produced by one ballot in `run_borda_step`: each
ranked position at index `rank` gets `weight * borda_weights[rank]` (when the
weight vector is long enough), and in standard mode each unranked candidate
gets an even share `weight * remaining_points / #remaining` of the leftover
weight mass. -/
def borda_ballot_updates (borda_weights : List ℤ) (all_candidates : List String)
    (standard : Bool) (b : Ballot) : List (List String × ℚ) :=
  (b.ranking.enum.map (fun p =>
    (p.2, if p.1 + 1 ≤ borda_weights.length
          then b.weight * ((borda_weights.getD p.1 0 : ℤ) : ℚ) else 0)))
  ++ (if standard = true then
        if b.ranking.length < borda_weights.length + 1 then
          let remaining_points : ℚ :=
            (((borda_weights.drop b.ranking.length).sum : ℤ) : ℚ)
          let remaining_cands :=
            all_candidates.filter (fun c => ¬ b.ranking.flatten.contains c)
          remaining_cands.map (fun c =>
            ([c], b.weight * (remaining_points / (remaining_cands.length : ℚ))))
        else []
      else [])

/-- Apply a list of score increments to the score dictionary. -/
def apply_updates (f : List String → ℚ) (ups : List (List String × ℚ)) :
    List String → ℚ :=
  ups.foldl (fun g kv => score_add g kv.1 kv.2) f

/-- The score dictionary built by the ballot loop of `run_borda_step`. -/
def borda_scores (borda_weights : List ℤ) (all_candidates : List String)
    (standard : Bool) (ballots : List Ballot) : List String → ℚ :=
  ballots.foldl
    (fun f b => apply_updates f (borda_ballot_updates borda_weights all_candidates standard b))
    (fun _ => 0)

/-! ### Ballot generators (`ballot_generator.py`) -/

/-- `ballot_weights[tuple(ballot)] = ballot_weights.get(tuple(ballot), 0) + 1`
over the whole pool (insertion-ordered dict). -/
def pool_add (acc : List (List (List String) × ℕ)) (r : List (List String)) :
    List (List (List String) × ℕ) :=
  if acc.any (fun p => p.1 = r) then
    acc.map (fun p => if p.1 = r then (p.1, p.2 + 1) else p)
  else acc ++ [(r, 1)]

/-- Occurrence counts of each distinct ranking in a ballot pool. -/
def tally_pool (pool : List (List (List String))) : List (List (List String) × ℕ) :=
  pool.foldl pool_add []

/-- `Ballot_Generator.ballot_pool_to_profile`: merge identical rankings into
one `Ballot` whose weight is the occurrence count. -/
def ballot_pool_to_profile (ballot_pool : List (List (List String)))
    (candidate_list : List String) : PreferenceProfile :=
  { ballots := (tally_pool ballot_pool).map (fun p => { ranking := p.1, weight := (p.2 : ℚ) })
    candidates := some candidate_list }

/-- `IC.generate_ballots`: `number_of_ballots` uniform draws (with
replacement) from the list of all permutations of the candidate list; the
source's `cand_list_to_set` wrapping of each candidate as a singleton set is
inlined.  Draw `i` uses stream value `rng i` reduced modulo the permutation
count (`random.randint(0, len - 1)`). -/
def IC_generate_ballots (number_of_ballots : ℕ) (candidate_list : List String)
    (rng : List ℕ) : PreferenceProfile :=
  let perm_rankings := (candidate_list.map (fun c => [c])).permutations
  let ballot_pool := (List.range number_of_ballots).map
    (fun i => perm_rankings.getD ((rng.getD i 0) % perm_rankings.length) [])
  ballot_pool_to_profile ballot_pool candidate_list

/-- `PlackettLuce.generate_ballots`: for each demographic block a quota of
`int(number_of_ballots * share)` ballots is generated; the numpy
without-replacement weighted sampling of each individual ballot is abstracted
as a `sampler` oracle (the claims under verification depend only on the
number of ballots produced). -/
def PL_generate_ballots (number_of_ballots : ℕ) (candidate_list : List String)
    (demo_breakdown : List (String × ℚ)) (sampler : String → ℕ → List (List String)) :
    PreferenceProfile :=
  let pool := (demo_breakdown.map (fun rf =>
    (List.range (pyInt ((number_of_ballots : ℚ) * rf.2)).toNat).map (sampler rf.1))).flatten
  ballot_pool_to_profile pool candidate_list

/-! ### Spec-side definitions (for refinement statements) -/

/-- Following the spec's words for C1: the first non-empty ranking position of
a ballot. -/
def firstNonemptyPos (r : List (List String)) : Option (List String) :=
  (r.filter (fun pos => pos ≠ [])).head?

/-- Following the spec's words for C1: the total weight of the ballots whose
first non-empty ranking position is the singleton `{c}`. -/
def spec_first_choice_tally (c : String) (ballots : List Ballot) : ℚ :=
  ballots.foldl (fun w b => if firstNonemptyPos b.ranking = some [c] then w + b.weight else w) 0

/-- Following the spec's words for C4: the remaining candidates whose
first-place tally is minimal. -/
def spec_min_tally_cands (remaining : List String) (ballots : List Ballot) : List String :=
  remaining.filter (fun c =>
    decide (∀ c2 ∈ remaining, firstPlaceTally c ballots ≤ firstPlaceTally c2 ballots))

/-! ### General lemmas -/

theorem insertDesc_perm (x : String × ℚ) (l : List (String × ℚ)) :
    (insertDesc x l).Perm (x :: l) := by
  induction l with
  | nil => simp [insertDesc]
  | cons y ys ih =>
    by_cases h : y.2 > x.2
    · simpa [insertDesc, h] using ((ih.cons y).trans (List.Perm.swap x y ys))
    · simp [insertDesc, h]

theorem sortDesc_perm (l : List (String × ℚ)) : (sortDesc l).Perm l := by
  induction l with
  | nil => simp [sortDesc]
  | cons x xs ih =>
    exact (insertDesc_perm x (sortDesc xs)).trans (ih.cons x)

theorem mem_compute_votes {p : String × ℚ} {cs : List String} {bs : List Ballot} :
    p ∈ compute_votes cs bs ↔ p ∈ cs.map (fun c => (c, firstPlaceTally c bs)) :=
  (sortDesc_perm _).mem_iff

theorem compute_votes_fst_perm (cs : List String) (bs : List Ballot) :
    ((compute_votes cs bs).map (·.1)).Perm cs := by
  have h := (sortDesc_perm (cs.map (fun c => (c, firstPlaceTally c bs)))).map
    (fun x : String × ℚ => x.1)
  simpa [compute_votes, Function.comp_def] using h

theorem compute_votes_length (cs : List String) (bs : List Ballot) :
    (compute_votes cs bs).length = cs.length :=
  ((sortDesc_perm _).length_eq).trans (by simp)

theorem getD_mem {α : Type} (l : List α) (i : ℕ) (d : α) (h : i < l.length) :
    l.getD i d ∈ l := by
  rw [List.getD_eq_getElem?_getD, List.getElem?_eq_getElem h]
  exact List.getElem_mem h

/-- Python `int()` truncation agrees with the floor on non-negative
rationals. -/
theorem pyInt_eq_floor (q : ℚ) (h : 0 ≤ q) : pyInt q = ⌊q⌋ := by
  rw [Rat.floor_def, pyInt,
    Int.tdiv_eq_ediv (Rat.num_nonneg.2 h) (Int.ofNat_nonneg q.den)]

/-! ### C1: first-place tallies -/

theorem spec_tally_eq_firstPlaceTally (c : String) (bs : List Ballot)
    (hwf : ∀ b ∈ bs, ∀ pos ∈ b.ranking, pos ≠ []) :
    spec_first_choice_tally c bs = firstPlaceTally c bs := by
  unfold spec_first_choice_tally firstPlaceTally
  suffices h : ∀ a : ℚ,
      bs.foldl (fun w b => if firstNonemptyPos b.ranking = some [c] then w + b.weight else w) a =
      bs.foldl (fun w b => if b.ranking.head? = some [c] then w + b.weight else w) a by
    exact h 0
  induction bs with
  | nil => intro a; rfl
  | cons b rest ih =>
    intro a
    have hb : firstNonemptyPos b.ranking = b.ranking.head? := by
      unfold firstNonemptyPos
      have : b.ranking.filter (fun pos => pos ≠ []) = b.ranking :=
        List.filter_eq_self.2 (fun pos hpos => by
          simpa using hwf b (by simp) pos hpos)
      rw [this]
    simp only [List.foldl_cons, hb]
    exact ih (fun b2 hb2 => hwf b2 (by simp [hb2])) _

/-- C1: `compute_votes` gives every listed candidate exactly one tally, equal
to the total weight of the ballots whose first (non-empty) ranking position is
the singleton of that candidate; ballots with a tied top position are counted
for nobody, and candidates ranked first by no ballot get tally `0`.  Stated
for well-formed ballots (no empty ranking positions), where "first non-empty
position" and "first position" coincide. -/
theorem compute_votes_first_choice (cs : List String) (bs : List Ballot) (c : String)
    (hwf : ∀ b ∈ bs, ∀ pos ∈ b.ranking, pos ≠ []) (hc : c ∈ cs) :
    (c, spec_first_choice_tally c bs) ∈ compute_votes cs bs ∧
    (∀ v : ℚ, (c, v) ∈ compute_votes cs bs → v = spec_first_choice_tally c bs) := by
  rw [spec_tally_eq_firstPlaceTally c bs hwf]
  constructor
  · exact mem_compute_votes.2 (List.mem_map.2 ⟨c, hc, rfl⟩)
  · intro v hv
    obtain ⟨c2, _, heq⟩ := List.mem_map.1 (mem_compute_votes.1 hv)
    obtain ⟨h1, h2⟩ := Prod.mk.injEq .. ▸ heq
    rw [← h2, h1]

/-- Witness for C1 at a concrete input: a tied top position `{A, B}`
contributes to neither candidate. -/
theorem compute_votes_first_choice_witness :
    (("A", spec_first_choice_tally "A"
        [⟨[["A"], ["B"]], 2⟩, ⟨[["A", "B"]], 1⟩, ⟨[["B"]], 5⟩]) ∈
      compute_votes ["A", "B"] [⟨[["A"], ["B"]], 2⟩, ⟨[["A", "B"]], 1⟩, ⟨[["B"]], 5⟩]) ∧
    (∀ v : ℚ, ("A", v) ∈
        compute_votes ["A", "B"] [⟨[["A"], ["B"]], 2⟩, ⟨[["A", "B"]], 1⟩, ⟨[["B"]], 5⟩] →
      v = spec_first_choice_tally "A"
        [⟨[["A"], ["B"]], 2⟩, ⟨[["A", "B"]], 1⟩, ⟨[["B"]], 5⟩]) :=
  compute_votes_first_choice ["A", "B"]
    [⟨[["A"], ["B"]], 2⟩, ⟨[["A", "B"]], 1⟩, ⟨[["B"]], 5⟩] "A"
    (by decide) (by decide)

/-! ### C3: quota thresholds -/

/-- C3: `get_threshold` returns the Droop quota `⌊W/(seats+1)⌋ + 1` for quota
string "droop" and the Hare quota `⌊W/seats⌋` for "hare" (case-insensitively),
in particular `138` and `183` for 550 ballots and 3 seats, and fails with an
error on any other quota string. -/
theorem get_threshold_correct :
    (∀ (W : ℚ) (s : ℕ) (q : String), 0 ≤ W → pyLower q = "droop" →
      get_threshold W s q = .ok (⌊W / ((s : ℚ) + 1)⌋ + 1)) ∧
    (∀ (W : ℚ) (s : ℕ) (q : String), 0 ≤ W → 1 ≤ s → pyLower q = "hare" →
      get_threshold W s q = .ok ⌊W / (s : ℚ)⌋) ∧
    get_threshold 550 3 "Droop" = .ok 138 ∧
    get_threshold 550 3 "HARE" = .ok 183 ∧
    (∀ (W : ℚ) (s : ℕ) (q : String), pyLower q ≠ "droop" → pyLower q ≠ "hare" →
      get_threshold W s q = .error .valueError) := by
  have hdroop : ∀ (W : ℚ) (s : ℕ) (q : String), 0 ≤ W → pyLower q = "droop" →
      get_threshold W s q = .ok (⌊W / ((s : ℚ) + 1)⌋ + 1) := by
    intro W s q hW hq
    have hnn : 0 ≤ W / ((s : ℚ) + 1) + 1 := by positivity
    have heval : get_threshold W s q = .ok (pyInt (W / ((s : ℚ) + 1) + 1)) := by
      rw [get_threshold]; simp [hq]
    rw [heval, pyInt_eq_floor _ hnn, Int.floor_add_one]
  have hhare : ∀ (W : ℚ) (s : ℕ) (q : String), 0 ≤ W → 1 ≤ s → pyLower q = "hare" →
      get_threshold W s q = .ok ⌊W / (s : ℚ)⌋ := by
    intro W s q hW hs hq
    have hpos : (0 : ℚ) < (s : ℚ) := by exact_mod_cast hs
    have hnn : 0 ≤ W / (s : ℚ) := by positivity
    have heval : get_threshold W s q = .ok (pyInt (W / (s : ℚ))) := by
      rw [get_threshold]; simp [hq]
    rw [heval, pyInt_eq_floor _ hnn]
  refine ⟨hdroop, hhare, ?_, ?_, ?_⟩
  · rw [hdroop 550 3 "Droop" (by norm_num) (by decide)]
    have h137 : ⌊(550 : ℚ) / (((3 : ℕ) : ℚ) + 1)⌋ = 137 := by
      rw [Int.floor_eq_iff] <;> norm_num
    rw [h137]; norm_num
  · rw [hhare 550 3 "HARE" (by norm_num) (by norm_num) (by decide)]
    have h183 : ⌊(550 : ℚ) / ((3 : ℕ) : ℚ)⌋ = 183 := by
      rw [Int.floor_eq_iff] <;> norm_num
    rw [h183]
  · intro W s q h1 h2
    rw [get_threshold]
    simp [h1, h2]

/-- Witness for C3 at a concrete input. -/
theorem get_threshold_correct_witness :
    get_threshold 550 3 "droop" = .ok (⌊(550 : ℚ) / ((3 : ℚ) + 1)⌋ + 1) :=
  get_threshold_correct.1 550 3 "droop" (by norm_num) (by decide)

/-! ### C10: `to_dict` on degenerate profiles -/

theorem rank_tuple_ok (r : List (List String)) (hwf : ∀ pos ∈ r, pos ≠ []) :
    ∃ key, rank_tuple r = .ok key := by
  induction r with
  | nil => exact ⟨[], rfl⟩
  | cons pos rest ih =>
    obtain ⟨key, hkey⟩ := ih (fun p hp => hwf p (by simp [hp]))
    obtain ⟨c, cs, hpos⟩ := List.exists_cons_of_ne_nil (hwf pos (by simp))
    exact ⟨c :: key, by simp [rank_tuple, hpos, hkey]⟩

/-- C10: `to_dict` on an empty profile returns the empty dictionary without
raising, for either value of `standardize`; on a non-empty profile of total
weight zero (with well-formed, non-empty ranking positions) a standardized
call raises `ZeroDivisionError`. -/
theorem to_dict_degenerate :
    (∀ (cands : Option (List String)) (std : Bool),
      to_dict { ballots := [], candidates := cands } std = .ok []) ∧
    (∀ p : PreferenceProfile, p.ballots ≠ [] → num_ballots p = 0 →
      (∀ b ∈ p.ballots, ∀ pos ∈ b.ranking, pos ≠ []) →
      to_dict p true = .error .zeroDivision) := by
  constructor
  · intro cands std
    rfl
  · intro p hne h0 hwf
    obtain ⟨b, rest, hbs⟩ := List.exists_cons_of_ne_nil hne
    obtain ⟨key, hkey⟩ := rank_tuple_ok b.ranking (hwf b (by simp [hbs]))
    rw [to_dict, h0, hbs]
    simp [to_dict_aux, hkey]

/-- Witness for C10: one zero-weight ballot. -/
theorem to_dict_degenerate_witness :
    to_dict { ballots := [⟨[["A"]], 0⟩], candidates := none } true =
      .error .zeroDivision :=
  to_dict_degenerate.2 { ballots := [⟨[["A"]], 0⟩], candidates := none }
    (by simp) (by simp [num_ballots]) (by decide)

/-! ### C5: fractional transfer -/

theorem foldl_add_weight (bs : List Ballot) (a : ℚ) :
    bs.foldl (fun acc b => acc + b.weight) a = a + (bs.map (·.weight)).sum := by
  induction bs generalizing a with
  | nil => simp
  | cons b rest ih => simp [ih, add_assoc]

theorem num_ballots_eq_sum (p : PreferenceProfile) :
    num_ballots p = (p.ballots.map (·.weight)).sum := by
  rw [num_ballots, foldl_add_weight, zero_add]

theorem tally_shift (c : String) (bs : List Ballot) (a : ℚ) :
    bs.foldl (fun w b => if b.ranking.head? = some [c] then w + b.weight else w) a =
      a + firstPlaceTally c bs := by
  induction bs generalizing a with
  | nil => simp [firstPlaceTally]
  | cons b rest ih =>
    rw [firstPlaceTally, List.foldl_cons, List.foldl_cons, ih, ih]
    by_cases h : b.ranking.head? = some [c] <;> simp [h] <;> ring

theorem firstPlaceTally_cons (c : String) (b : Ballot) (bs : List Ballot) :
    firstPlaceTally c (b :: bs) =
      (if b.ranking.head? = some [c] then b.weight else 0) + firstPlaceTally c bs := by
  rw [firstPlaceTally, List.foldl_cons, tally_shift]
  by_cases h : b.ranking.head? = some [c] <;> simp [h]

theorem scaled_sum (winner : String) (tv : ℚ) (ballots : List Ballot) :
    ((ballots.map (fun b =>
        if b.ranking.head? = some [winner] then b.weight * tv else b.weight))).sum =
      (ballots.map (·.weight)).sum - (1 - tv) * firstPlaceTally winner ballots := by
  induction ballots with
  | nil => simp [firstPlaceTally]
  | cons b rest ih =>
    rw [List.map_cons, List.map_cons, List.sum_cons, List.sum_cons, ih,
      firstPlaceTally_cons]
    by_cases h : b.ranking.head? = some [winner] <;> simp [h] <;> ring

/-- C5 (amended for the behaviour of `remove_cand` on tied positions): under
fractional transfer with `votes[winner]` equal to the winner's actual
first-place tally `v ≠ 0` and quota `q`, every ballot whose first position is
the winner's singleton is scaled by `(v - q)/v`, all other weights are
unchanged, every position equal to the winner's singleton is removed from
every ranking (a tied position keeps the winner), and the total ballot weight
drops by exactly `q`. -/
theorem fractional_transfer_correct (winner : String) (ballots : List Ballot)
    (votes : String → ℚ) (threshold : ℤ)
    (hv : votes winner = firstPlaceTally winner ballots)
    (hv0 : votes winner ≠ 0) :
    (fractional_transfer winner ballots votes threshold).map (·.weight) =
      ballots.map (fun b => if b.ranking.head? = some [winner]
        then b.weight * ((votes winner - (threshold : ℚ)) / votes winner)
        else b.weight) ∧
    (fractional_transfer winner ballots votes threshold).map (·.ranking) =
      ballots.map (fun b => b.ranking.filter (fun pos => pos ≠ [winner])) ∧
    num_ballots ⟨fractional_transfer winner ballots votes threshold, none⟩ =
      num_ballots ⟨ballots, none⟩ - (threshold : ℚ) := by
  have hw : (fractional_transfer winner ballots votes threshold).map (·.weight) =
      ballots.map (fun b => if b.ranking.head? = some [winner]
        then b.weight * ((votes winner - (threshold : ℚ)) / votes winner)
        else b.weight) := by
    rw [fractional_transfer, remove_cand, List.map_map, List.map_map]
    refine List.map_congr_left (fun b _ => ?_)
    by_cases h : b.ranking.head? = some [winner] <;> simp [Function.comp, h]
  refine ⟨hw, ?_, ?_⟩
  · rw [fractional_transfer, remove_cand, List.map_map, List.map_map]
    refine List.map_congr_left (fun b _ => ?_)
    by_cases h : b.ranking.head? = some [winner] <;> simp [Function.comp, h]
  · rw [num_ballots_eq_sum, num_ballots_eq_sum]
    show ((fractional_transfer winner ballots votes threshold).map (·.weight)).sum = _
    rw [hw, scaled_sum, ← hv]
    have : (1 - (votes winner - (threshold : ℚ)) / votes winner) * votes winner =
        (threshold : ℚ) := by
      field_simp
    rw [this]

/-- Witness for C5 at a concrete input. -/
theorem fractional_transfer_correct_witness :
    ((fractional_transfer "W" [⟨[["W"], ["A"]], 2⟩, ⟨[["A"]], 3⟩]
        (fun c => if c = "W" then 2 else 0) 1).map (·.weight) =
      ([⟨[["W"], ["A"]], 2⟩, ⟨[["A"]], 3⟩] : List Ballot).map (fun b =>
        if b.ranking.head? = some [("W" : String)]
        then b.weight * (((if ("W" : String) = "W" then (2 : ℚ) else 0) - ((1 : ℤ) : ℚ)) /
          (if ("W" : String) = "W" then (2 : ℚ) else 0))
        else b.weight)) ∧
    ((fractional_transfer "W" [⟨[["W"], ["A"]], 2⟩, ⟨[["A"]], 3⟩]
        (fun c => if c = "W" then 2 else 0) 1).map (·.ranking) =
      ([⟨[["W"], ["A"]], 2⟩, ⟨[["A"]], 3⟩] : List Ballot).map (fun b =>
        b.ranking.filter (fun pos => pos ≠ [("W" : String)]))) ∧
    num_ballots ⟨fractional_transfer "W" [⟨[["W"], ["A"]], 2⟩, ⟨[["A"]], 3⟩]
        (fun c => if c = "W" then 2 else 0) 1, none⟩ =
      num_ballots ⟨[⟨[["W"], ["A"]], 2⟩, ⟨[["A"]], 3⟩], none⟩ - ((1 : ℤ) : ℚ) :=
  fractional_transfer_correct "W" [⟨[["W"], ["A"]], 2⟩, ⟨[["A"]], 3⟩]
    (fun c => if c = "W" then 2 else 0) 1
    (by simp [firstPlaceTally]) (by simp)

/-! ### STV chain lemmas (C2, C4, C6) -/

theorem allWinners_cons (x : ESRec) (ch : List ESRec) :
    allWinners (x :: ch) = allWinners ch ++ x.elected := by
  simp [allWinners]

theorem allEliminated_cons (x : ESRec) (ch : List ESRec) :
    allEliminated (x :: ch) = x.eliminated ++ allEliminated ch := by
  simp [allEliminated]

theorem pair_mem_compute_votes {p : String × ℚ} {cs : List String} {bs : List Ballot}
    (h : p ∈ compute_votes cs bs) :
    p.1 ∈ cs ∧ p.2 = firstPlaceTally p.1 bs := by
  obtain ⟨c, hc, heq⟩ := List.mem_map.1 (mem_compute_votes.1 h)
  cases heq
  exact ⟨hc, rfl⟩

theorem electAll_remaining_length (t : Transfer) (vm : String → ℚ) (th : ℤ) :
    ∀ (fp : List (String × ℚ)) (e r : List String) (bs : List Ballot),
      (electAll t vm th fp e r bs).2.1.length ≤ r.length := by
  intro fp
  induction fp with
  | nil => intro e r bs; simp [electAll]
  | cons p rest ih =>
    intro e r bs
    obtain ⟨c, v⟩ := p
    rw [electAll]
    by_cases h : v ≥ (th : ℚ)
    · rw [if_pos h]
      exact le_trans (ih ..) (List.erase_sublist c r).length_le
    · rw [if_neg h]
      exact ih ..

theorem electAll_perm (t : Transfer) (vm : String → ℚ) (th : ℤ) :
    ∀ (fp : List (String × ℚ)) (e r : List String) (bs : List Ballot),
      (fp.map (·.1)).Nodup → (∀ c ∈ fp.map (·.1), c ∈ r) → r.Nodup →
      ((electAll t vm th fp e r bs).1 ++ (electAll t vm th fp e r bs).2.1).Perm (e ++ r) ∧
      (electAll t vm th fp e r bs).2.1.Nodup := by
  intro fp
  induction fp with
  | nil =>
    intro e r bs _ _ hr
    exact ⟨by simp [electAll], hr⟩
  | cons p rest ih =>
    intro e r bs hnd hsub hr
    obtain ⟨c, v⟩ := p
    have hcr : c ∈ r := hsub c (by simp)
    have hnd2 : (rest.map (·.1)).Nodup := (List.nodup_cons.1 hnd).2
    have hcnot : c ∉ rest.map (·.1) := (List.nodup_cons.1 hnd).1
    rw [electAll]
    by_cases h : v ≥ (th : ℚ)
    · rw [if_pos h]
      have hsub2 : ∀ c2 ∈ rest.map (·.1), c2 ∈ r.erase c := by
        intro c2 hc2
        refine (List.mem_erase_of_ne ?_).2 (hsub c2 (by simp [hc2]))
        intro hc2c
        rw [hc2c] at hc2
        exact hcnot hc2
      obtain ⟨hperm, hnodup⟩ :=
        ih (e ++ [c]) (r.erase c) (t c bs vm th) hnd2 hsub2 (hr.erase c)
      refine ⟨hperm.trans ?_, hnodup⟩
      rw [List.append_assoc, List.singleton_append]
      exact ((List.perm_cons_erase hcr).symm).append_left e
    · rw [if_neg h]
      exact ih e r bs hnd2 (fun c2 hc2 => hsub c2 (by simp [hc2])) hr

/-- The partition invariant for an STV chain: cumulative winners, cumulative
eliminated and current remaining together are a permutation of the full
candidate list. -/
def partition_inv (cur : ESRec) (hist : List ESRec) (cs : List String) : Prop :=
  (allWinners (cur :: hist) ++ allEliminated (cur :: hist) ++ cur.remaining).Perm cs

theorem partition_inv_init (profile : PreferenceProfile) :
    partition_inv (stv_init_state profile) [] (get_candidates profile) := by
  unfold partition_inv stv_init_state
  simp [allWinners, allEliminated]
  exact compute_votes_fst_perm _ _

/-- The minimum computed by the elimination branch is attained by some tally
pair. -/
theorem foldl_min_attained (rest : List (String × ℚ)) :
    ∀ v0 : ℚ, rest.foldl (fun m p => min m p.2) v0 = v0 ∨
      ∃ p ∈ rest, rest.foldl (fun m p => min m p.2) v0 = p.2 := by
  induction rest with
  | nil => intro v0; exact Or.inl rfl
  | cons q rest ih =>
    intro v0
    rcases ih (min v0 q.2) with h | ⟨p, hp, hval⟩
    · rcases le_total v0 q.2 with hle | hle
      · exact Or.inl (by simpa [min_eq_left hle] using h)
      · exact Or.inr ⟨q, by simp, by simpa [min_eq_right hle] using h⟩
    · exact Or.inr ⟨p, by simp [hp], hval⟩

theorem foldl_min_le (rest : List (String × ℚ)) :
    ∀ v0 : ℚ, rest.foldl (fun m p => min m p.2) v0 ≤ v0 ∧
      ∀ p ∈ rest, rest.foldl (fun m p => min m p.2) v0 ≤ p.2 := by
  induction rest with
  | nil => intro v0; exact ⟨le_refl _, by simp⟩
  | cons q rest ih =>
    intro v0
    obtain ⟨h1, h2⟩ := ih (min v0 q.2)
    refine ⟨le_trans h1 (min_le_left _ _), ?_⟩
    intro p hp
    rcases List.mem_cons.1 hp with rfl | hp2
    · exact le_trans h1 (min_le_right _ _)
    · exact h2 p hp2

/-- One `run_step` preserves the partition invariant. -/
theorem run_step_partition (t : Transfer) (s : ℕ) (th : ℤ)
    (cur : ESRec) (hist : List ESRec) (rng : List ℕ) (cs : List String)
    (hnd : cs.Nodup) (hinv : partition_inv cur hist cs) :
    ∀ (nw : ESRec) (rng2 : List ℕ),
      run_step t s th cur hist rng = .ok (nw, rng2) →
      partition_inv nw (cur :: hist) cs := by
  intro nw rng2 hstep
  have hper : ((compute_votes cur.remaining cur.profile).map (·.1)).Perm cur.remaining :=
    compute_votes_fst_perm _ _
  have hcat_nd :
      (allWinners (cur :: hist) ++ allEliminated (cur :: hist) ++ cur.remaining).Nodup :=
    hinv.symm.nodup hnd
  have hrem_nd : cur.remaining.Nodup := List.Nodup.of_append_right hcat_nd
  unfold partition_inv at hinv
  rw [← Multiset.coe_eq_coe, ← Multiset.coe_add, ← Multiset.coe_add] at hinv
  simp only [run_step] at hstep
  split at hstep
  · -- branch 1: everyone remaining is elected
    simp only [Except.ok.injEq, Prod.mk.injEq] at hstep
    obtain ⟨hnw, _⟩ := hstep
    subst hnw
    have hF : (((compute_votes cur.remaining cur.profile).map (·.1) : List String) :
        Multiset String) = (cur.remaining : Multiset String) :=
      Multiset.coe_eq_coe.2 hper
    unfold partition_inv
    rw [allWinners_cons, allEliminated_cons, ← Multiset.coe_eq_coe,
      ← Multiset.coe_add, ← Multiset.coe_add, ← Multiset.coe_add, ← Multiset.coe_add]
    rw [← hinv, hF]
    simp only [Multiset.coe_nil]
    abel
  · split at hstep
    · exact absurd hstep (by simp)
    · next c0 v0 rest heqfp =>
      split at hstep
      · -- branch 2: elect everyone at/above threshold
        simp only [Except.ok.injEq, Prod.mk.injEq] at hstep
        obtain ⟨hnw, _⟩ := hstep
        subst hnw
        have hndfp : ((compute_votes cur.remaining cur.profile).map (·.1)).Nodup :=
          (hper.nodup_iff).2 hrem_nd
        have hsubfp : ∀ c ∈ (compute_votes cur.remaining cur.profile).map (·.1),
            c ∈ cur.remaining := fun c hc => hper.mem_iff.1 hc
        obtain ⟨hperm, _⟩ := electAll_perm t
          (fun c => (((compute_votes cur.remaining cur.profile).find?
            (fun p => p.1 = c)).map (·.2)).getD 0) th
          (compute_votes cur.remaining cur.profile) [] cur.remaining cur.profile
          hndfp hsubfp hrem_nd
        simp only [List.nil_append] at hperm
        have hE : ((((electAll t (fun c => (((compute_votes cur.remaining cur.profile).find?
              (fun p => p.1 = c)).map (·.2)).getD 0) th
              (compute_votes cur.remaining cur.profile) [] cur.remaining cur.profile).1 ++
            (electAll t (fun c => (((compute_votes cur.remaining cur.profile).find?
              (fun p => p.1 = c)).map (·.2)).getD 0) th
              (compute_votes cur.remaining cur.profile) [] cur.remaining cur.profile).2.1 :
              List String) :
            Multiset String)) = (cur.remaining : Multiset String) :=
          Multiset.coe_eq_coe.2 hperm
        rw [← Multiset.coe_add] at hE
        unfold partition_inv
        rw [allWinners_cons, allEliminated_cons, ← Multiset.coe_eq_coe,
          ← Multiset.coe_add, ← Multiset.coe_add, ← Multiset.coe_add, ← Multiset.coe_add]
        rw [← hinv, ← hE]
        simp only [Multiset.coe_nil]
        abel
      · split at hstep
        · -- branch 3: eliminate a minimum-tally candidate
          simp only [Except.ok.injEq, Prod.mk.injEq] at hstep
          obtain ⟨hnw, _⟩ := hstep
          subst hnw
          set lpc := (((compute_votes cur.remaining cur.profile).filter
              (fun p => p.2 = rest.foldl (fun m p => min m p.2) v0)).map (·.1)).getD
                ((rng.headD 0) %
                  (((compute_votes cur.remaining cur.profile).filter
                    (fun p => p.2 = rest.foldl (fun m p => min m p.2) v0)).map (·.1)).length) ""
            with hlpc
          -- the eliminated candidate is a member of remaining
          have hlpmem : ∃ p ∈ compute_votes cur.remaining cur.profile,
              rest.foldl (fun m p => min m p.2) v0 = p.2 := by
            rcases foldl_min_attained rest v0 with h | ⟨p, hp, hval⟩
            · exact ⟨(c0, v0), by simp [heqfp], h⟩
            · exact ⟨p, by simp [heqfp, hp], hval⟩
          obtain ⟨pmin, hpmin, hpval⟩ := hlpmem
          have hpfil : pmin ∈ (compute_votes cur.remaining cur.profile).filter
              (fun p => p.2 = rest.foldl (fun m p => min m p.2) v0) :=
            List.mem_filter.2 ⟨hpmin, by simp [hpval]⟩
          have hlen : 0 < (((compute_votes cur.remaining cur.profile).filter
              (fun p => p.2 = rest.foldl (fun m p => min m p.2) v0)).map (·.1)).length := by
            rw [List.length_map, List.length_pos]
            exact List.ne_nil_of_mem hpfil
          have hmemlp : lpc ∈ ((compute_votes cur.remaining cur.profile).filter
              (fun p => p.2 = rest.foldl (fun m p => min m p.2) v0)).map (·.1) := by
            rw [hlpc]
            exact getD_mem _ _ _ (Nat.mod_lt _ hlen)
          have hmemrem : lpc ∈ cur.remaining := by
            obtain ⟨pr, hpr, hpr2⟩ := List.mem_map.1 hmemlp
            exact hpr2 ▸ (pair_mem_compute_votes (List.mem_filter.1 hpr).1).1
          have hR : (cur.remaining : Multiset String) =
              (([lpc] : List String) : Multiset String) +
              ((cur.remaining.erase lpc : List String) : Multiset String) := by
            rw [Multiset.coe_add, Multiset.coe_eq_coe, List.singleton_append]
            exact List.perm_cons_erase hmemrem
          unfold partition_inv
          rw [allWinners_cons, allEliminated_cons, ← Multiset.coe_eq_coe,
            ← Multiset.coe_add, ← Multiset.coe_add, ← Multiset.coe_add, ← Multiset.coe_add]
          rw [← hinv, hR]
          simp only [Multiset.coe_nil]
          abel
        · -- branch 4: nothing changes
          simp only [Except.ok.injEq, Prod.mk.injEq] at hstep
          obtain ⟨hnw, _⟩ := hstep
          subst hnw
          unfold partition_inv
          rw [allWinners_cons, allEliminated_cons, ← Multiset.coe_eq_coe,
            ← Multiset.coe_add, ← Multiset.coe_add, ← Multiset.coe_add, ← Multiset.coe_add]
          rw [← hinv]
          simp only [Multiset.coe_nil]
          abel

/-- The partition statement for the outcome of a prefix of an STV run:
whenever the rounds all succeed, cumulative elected, cumulative eliminated and
current remaining form a permutation of the full candidate list with no
duplicates (hence pairwise disjoint with union the full candidate set). -/
def stv_partition_claim (r : Except PyErr (ESRec × List ESRec × List ℕ))
    (cs : List String) : Prop :=
  match r with
  | .ok (cur, hist, _) =>
    ((allWinners (cur :: hist) ++ allEliminated (cur :: hist) ++ cur.remaining).Perm cs) ∧
    (allWinners (cur :: hist) ++ allEliminated (cur :: hist) ++ cur.remaining).Nodup
  | .error _ => True

theorem run_steps_partition (t : Transfer) (s : ℕ) (th : ℤ) (cs : List String)
    (hnd : cs.Nodup) :
    ∀ (n : ℕ) (cur : ESRec) (hist : List ESRec) (rng : List ℕ),
      partition_inv cur hist cs →
      stv_partition_claim (run_steps t s th n cur hist rng) cs := by
  intro n
  induction n with
  | zero =>
    intro cur hist rng hinv
    exact ⟨hinv, hinv.symm.nodup hnd⟩
  | succ n ih =>
    intro cur hist rng hinv
    rw [run_steps]
    cases hstep : run_step t s th cur hist rng with
    | error e => trivial
    | ok pr =>
      obtain ⟨nw, rng2⟩ := pr
      exact ih nw (cur :: hist) rng2
        (run_step_partition t s th cur hist rng cs hnd hinv nw rng2 hstep)

/-- C2: along any prefix of an STV run, the cumulative elected candidates,
the cumulative eliminated candidates and the current remaining candidates are
pairwise disjoint and together are exactly the candidate set of the initial
profile (stated as: their concatenation is a duplicate-free permutation of the
candidate list). -/
theorem stv_partition_invariant (t : Transfer) (seats : ℕ) (threshold : ℤ)
    (profile : PreferenceProfile) (rng : List ℕ) (n : ℕ)
    (hnd : (get_candidates profile).Nodup) :
    stv_partition_claim
      (run_steps t seats threshold n (stv_init_state profile) [] rng)
      (get_candidates profile) :=
  run_steps_partition t seats threshold _ hnd n _ [] rng (partition_inv_init profile)

/-- Witness for C2: two rounds of a concrete 2-candidate election. -/
theorem stv_partition_invariant_witness :
    stv_partition_claim
      (run_steps fractional_transfer 1 1 2
        (stv_init_state ⟨[⟨[["A"], ["B"]], 1⟩], some ["A", "B"]⟩) [] [0])
      (get_candidates ⟨[⟨[["A"], ["B"]], 1⟩], some ["A", "B"]⟩) :=
  stv_partition_invariant fractional_transfer 1 1
    ⟨[⟨[["A"], ["B"]], 1⟩], some ["A", "B"]⟩ [0] 2 (by decide)

/-! ### C4: elimination rounds -/

theorem lp_cand_mem_remaining (remaining : List String) (ballots : List Ballot)
    (c0 : String) (v0 : ℚ) (rest : List (String × ℚ)) (k : ℕ)
    (heqfp : compute_votes remaining ballots = (c0, v0) :: rest) :
    ((((compute_votes remaining ballots).filter
        (fun p => p.2 = rest.foldl (fun m p => min m p.2) v0)).map (·.1)).getD
      (k % (((compute_votes remaining ballots).filter
        (fun p => p.2 = rest.foldl (fun m p => min m p.2) v0)).map (·.1)).length) "")
      ∈ remaining := by
  have hlpmem : ∃ p ∈ compute_votes remaining ballots,
      rest.foldl (fun m p => min m p.2) v0 = p.2 := by
    rcases foldl_min_attained rest v0 with h | ⟨p, hp, hval⟩
    · exact ⟨(c0, v0), by simp [heqfp], h⟩
    · exact ⟨p, by simp [heqfp, hp], hval⟩
  obtain ⟨pmin, hpmin, hpval⟩ := hlpmem
  have hpfil : pmin ∈ (compute_votes remaining ballots).filter
      (fun p => p.2 = rest.foldl (fun m p => min m p.2) v0) :=
    List.mem_filter.2 ⟨hpmin, by simp [hpval]⟩
  have hlen : 0 < (((compute_votes remaining ballots).filter
      (fun p => p.2 = rest.foldl (fun m p => min m p.2) v0)).map (·.1)).length := by
    rw [List.length_map, List.length_pos]
    exact List.ne_nil_of_mem hpfil
  have hmemlp := getD_mem (((compute_votes remaining ballots).filter
      (fun p => p.2 = rest.foldl (fun m p => min m p.2) v0)).map (·.1))
    (k % (((compute_votes remaining ballots).filter
      (fun p => p.2 = rest.foldl (fun m p => min m p.2) v0)).map (·.1)).length) ""
    (Nat.mod_lt _ hlen)
  obtain ⟨pr, hpr, hpr2⟩ := List.mem_map.1 hmemlp
  exact hpr2 ▸ (pair_mem_compute_votes (List.mem_filter.1 hpr).1).1

/-- C4 (amended): in a round where the remaining-candidates count differs from
the open-seat count, no remaining candidate's tally reaches the quota and the
election is not over, `run_step` eliminates exactly one candidate, drawn by
the random tie-break from the set of minimum-tally candidates (every member of
that set is the choice for some draw); the eliminated candidate is erased from
`remaining`, and elimination removes exactly the singleton positions `{c}`
from the ballots, leaving all ballot weights unchanged. -/
theorem run_step_elimination (t : Transfer) (s : ℕ) (th : ℤ)
    (cur : ESRec) (hist : List ESRec) (rng : List ℕ)
    (hbranch : (cur.remaining.length : ℤ) ≠ (s : ℤ) - ((allWinners (cur :: hist)).length : ℤ))
    (hne : cur.remaining ≠ [])
    (hlow : ∀ c ∈ cur.remaining, firstPlaceTally c cur.profile < (th : ℚ))
    (hnr : (allWinners (cur :: hist)).length ≠ s) :
    (∃ c ∈ spec_min_tally_cands cur.remaining cur.profile,
      run_step t s th cur hist rng =
        .ok ({ curr_round := cur.curr_round + 1, elected := [], eliminated := [c],
               remaining := cur.remaining.erase c,
               profile := remove_cand c cur.profile }, rng.tail)) ∧
    (∀ c ∈ spec_min_tally_cands cur.remaining cur.profile, ∃ rng2 : List ℕ,
      run_step t s th cur hist rng2 =
        .ok ({ curr_round := cur.curr_round + 1, elected := [], eliminated := [c],
               remaining := cur.remaining.erase c,
               profile := remove_cand c cur.profile }, rng2.tail)) ∧
    (∀ (c : String) (bs : List Ballot),
      (remove_cand c bs).map (·.weight) = bs.map (·.weight) ∧
      (remove_cand c bs).map (·.ranking) =
        bs.map (fun b => b.ranking.filter (fun pos => pos ≠ [c]))) := by
  obtain ⟨c0, v0, rest, heqfp⟩ :
      ∃ c0 v0 rest, compute_votes cur.remaining cur.profile = (c0, v0) :: rest := by
    cases h : compute_votes cur.remaining cur.profile with
    | nil =>
      exfalso
      have hl := compute_votes_length cur.remaining cur.profile
      rw [h] at hl
      exact hne (List.length_eq_zero.1 hl.symm)
    | cons p rest2 =>
      obtain ⟨a, b⟩ := p
      exact ⟨a, b, rest2, rfl⟩
  have hv0 : ¬ v0 ≥ (th : ℚ) := by
    have hp := @pair_mem_compute_votes (c0, v0) cur.remaining cur.profile
      (by rw [heqfp]; exact List.mem_cons_self _ _)
    push_neg
    calc v0 = firstPlaceTally c0 cur.profile := hp.2
      _ < (th : ℚ) := hlow c0 hp.1
  -- evaluation of run_step for an arbitrary stream
  have hrun : ∀ rngx : List ℕ, run_step t s th cur hist rngx =
      .ok ({ curr_round := cur.curr_round + 1, elected := [],
             eliminated := [((((c0, v0) :: rest).filter
                 (fun p => p.2 = rest.foldl (fun m p => min m p.2) v0)).map (·.1)).getD
               ((rngx.headD 0) % ((((c0, v0) :: rest).filter
                 (fun p => p.2 = rest.foldl (fun m p => min m p.2) v0)).map (·.1)).length) ""],
             remaining := cur.remaining.erase
               (((((c0, v0) :: rest).filter
                 (fun p => p.2 = rest.foldl (fun m p => min m p.2) v0)).map (·.1)).getD
               ((rngx.headD 0) % ((((c0, v0) :: rest).filter
                 (fun p => p.2 = rest.foldl (fun m p => min m p.2) v0)).map (·.1)).length) ""),
             profile := remove_cand
               (((((c0, v0) :: rest).filter
                 (fun p => p.2 = rest.foldl (fun m p => min m p.2) v0)).map (·.1)).getD
               ((rngx.headD 0) % ((((c0, v0) :: rest).filter
                 (fun p => p.2 = rest.foldl (fun m p => min m p.2) v0)).map (·.1)).length) "")
               cur.profile }, rngx.tail) := by
    intro rngx
    simp only [run_step, heqfp]
    rw [if_neg hbranch, if_neg hv0, if_pos hnr]
  -- facts about the minimum
  have hminle : ∀ p ∈ (c0, v0) :: rest, rest.foldl (fun m p => min m p.2) v0 ≤ p.2 := by
    intro p hp
    rcases List.mem_cons.1 hp with rfl | hp2
    · exact (foldl_min_le rest v0).1
    · exact (foldl_min_le rest v0).2 p hp2
  have hatt : ∃ p ∈ (c0, v0) :: rest, p.2 = rest.foldl (fun m p => min m p.2) v0 := by
    rcases foldl_min_attained rest v0 with h | ⟨p, hp, hval⟩
    · exact ⟨(c0, v0), by simp, h.symm⟩
    · exact ⟨p, by simp [hp], hval.symm⟩
  have hcover : ∀ c2 ∈ cur.remaining,
      (c2, firstPlaceTally c2 cur.profile) ∈ (c0, v0) :: rest := by
    intro c2 hc2
    rw [← heqfp]
    exact mem_compute_votes.2 (List.mem_map.2 ⟨c2, hc2, rfl⟩)
  have hpairmem : ∀ p ∈ (c0, v0) :: rest, p.1 ∈ cur.remaining ∧
      p.2 = firstPlaceTally p.1 cur.profile := by
    intro p hp
    exact pair_mem_compute_votes (by rw [heqfp]; exact hp)
  -- the tie-break list is exactly the spec's minimum-tally candidate set
  have hiff : ∀ c, c ∈ (((c0, v0) :: rest).filter
      (fun p => p.2 = rest.foldl (fun m p => min m p.2) v0)).map (·.1) ↔
      c ∈ spec_min_tally_cands cur.remaining cur.profile := by
    intro c
    constructor
    · intro hc
      obtain ⟨p, hpfil, hp1⟩ := List.mem_map.1 hc
      obtain ⟨hpmem, hpval⟩ := List.mem_filter.1 hpfil
      obtain ⟨hprem, hptal⟩ := hpairmem p hpmem
      have hval : firstPlaceTally c cur.profile = rest.foldl (fun m p => min m p.2) v0 := by
        rw [← hp1, ← hptal]
        exact of_decide_eq_true hpval
      rw [spec_min_tally_cands, List.mem_filter]
      refine ⟨hp1 ▸ hprem, decide_eq_true ?_⟩
      intro c2 hc2
      rw [hval]
      have := hminle _ (hcover c2 hc2)
      simpa using this
    · intro hc
      rw [spec_min_tally_cands, List.mem_filter] at hc
      obtain ⟨hcrem, hcmin⟩ := hc
      have hcmin2 := of_decide_eq_true hcmin
      have hcp := hcover c hcrem
      have hle : rest.foldl (fun m p => min m p.2) v0 ≤ firstPlaceTally c cur.profile :=
        by simpa using hminle _ hcp
      obtain ⟨pm, hpmmem, hpmval⟩ := hatt
      obtain ⟨hpmrem, hpmtal⟩ := hpairmem pm hpmmem
      have hge : firstPlaceTally c cur.profile ≤ rest.foldl (fun m p => min m p.2) v0 := by
        rw [← hpmval, hpmtal]
        exact hcmin2 pm.1 hpmrem
      have heqmin : firstPlaceTally c cur.profile = rest.foldl (fun m p => min m p.2) v0 :=
        le_antisymm hge hle
      refine List.mem_map.2 ⟨(c, firstPlaceTally c cur.profile),
        List.mem_filter.2 ⟨hcp, by simp [heqmin]⟩, rfl⟩
  have hlen : 0 < ((((c0, v0) :: rest).filter
      (fun p => p.2 = rest.foldl (fun m p => min m p.2) v0)).map (·.1)).length := by
    obtain ⟨pm, hpmmem, hpmval⟩ := hatt
    rw [List.length_map, List.length_pos]
    exact List.ne_nil_of_mem (List.mem_filter.2 ⟨hpmmem, by simp [hpmval]⟩)
  refine ⟨?_, ?_, ?_⟩
  · refine ⟨((((c0, v0) :: rest).filter
      (fun p => p.2 = rest.foldl (fun m p => min m p.2) v0)).map (·.1)).getD
        ((rng.headD 0) % ((((c0, v0) :: rest).filter
          (fun p => p.2 = rest.foldl (fun m p => min m p.2) v0)).map (·.1)).length) "",
      (hiff _).1 (getD_mem _ _ _ (Nat.mod_lt _ hlen)), hrun rng⟩
  · intro c hc
    obtain ⟨j, hj, hgetc⟩ := List.mem_iff_getElem.1 ((hiff c).2 hc)
    refine ⟨[j], ?_⟩
    have hpick : ((((c0, v0) :: rest).filter
        (fun p => p.2 = rest.foldl (fun m p => min m p.2) v0)).map (·.1)).getD
          ((([j] : List ℕ).headD 0) % ((((c0, v0) :: rest).filter
            (fun p => p.2 = rest.foldl (fun m p => min m p.2) v0)).map (·.1)).length) "" = c := by
      simp only [List.headD_cons]
      rw [Nat.mod_eq_of_lt hj, List.getD_eq_getElem?_getD, List.getElem?_eq_getElem hj]
      simpa using hgetc
    rw [hrun [j], hpick]
  · intro c bs
    constructor
    · rw [remove_cand, List.map_map]
      rfl
    · rw [remove_cand, List.map_map]
      rfl

/-- Witness for C4 at a concrete input: candidate "B" (tally 0) is the unique
minimum and is eliminated. -/
theorem run_step_elimination_witness :
    (∃ c ∈ spec_min_tally_cands ["A", "B"] [⟨[["A"]], 1⟩],
      run_step fractional_transfer 1 5
          ⟨0, [], [], ["A", "B"], [⟨[["A"]], 1⟩]⟩ [] [] =
        .ok ({ curr_round := 0 + 1, elected := [], eliminated := [c],
               remaining := ["A", "B"].erase c,
               profile := remove_cand c [⟨[["A"]], 1⟩] }, ([] : List ℕ).tail)) ∧
    (∀ c ∈ spec_min_tally_cands ["A", "B"] [⟨[["A"]], 1⟩], ∃ rng2 : List ℕ,
      run_step fractional_transfer 1 5
          ⟨0, [], [], ["A", "B"], [⟨[["A"]], 1⟩]⟩ [] rng2 =
        .ok ({ curr_round := 0 + 1, elected := [], eliminated := [c],
               remaining := ["A", "B"].erase c,
               profile := remove_cand c [⟨[["A"]], 1⟩] }, rng2.tail)) ∧
    (∀ (c : String) (bs : List Ballot),
      (remove_cand c bs).map (·.weight) = bs.map (·.weight) ∧
      (remove_cand c bs).map (·.ranking) =
        bs.map (fun b => b.ranking.filter (fun pos => pos ≠ [c]))) :=
  run_step_elimination fractional_transfer 1 5
    ⟨0, [], [], ["A", "B"], [⟨[["A"]], 1⟩]⟩ [] []
    (by simp [allWinners])
    (by simp)
    (by simp [firstPlaceTally])
    (by simp [allWinners])

/-- Counterexample for C4 as stated: a round in which no candidate reaches
the quota but in which the remaining candidates exactly fill the open seats
elects everyone and eliminates nobody; moreover `remove_cand` does not remove
a candidate from a tied ranking position. -/
theorem run_step_elimination_cex :
    run_step fractional_transfer 2 5
        ⟨0, [], [], ["A", "B"], [⟨[["A"]], 1⟩, ⟨[["B"]], 1⟩]⟩ [] [] =
      .ok (⟨1, ["A", "B"], [], [], []⟩, []) ∧
    (∀ c ∈ ["A", "B"],
      firstPlaceTally c [⟨[["A"]], 1⟩, ⟨[["B"]], 1⟩] < ((5 : ℤ) : ℚ)) ∧
    remove_cand "A" [⟨[["A", "B"], ["C"]], 1⟩] = [⟨[["A", "B"], ["C"]], 1⟩] := by
  refine ⟨?_, ?_, ?_⟩
  · simp [run_step, compute_votes, firstPlaceTally, sortDesc, insertDesc,
      allWinners, allEliminated]
  · simp [firstPlaceTally]
  · simp [remove_cand]

/-! ### C6: the `run_election` loop is bounded -/

theorem run_step_no_fuelOut_error (t : Transfer) (s : ℕ) (th : ℤ)
    (cur : ESRec) (hist : List ESRec) (rng : List ℕ) :
    run_step t s th cur hist rng ≠ .error .fuelOut := by
  simp only [run_step]
  split
  · simp
  · split
    · simp
    · split
      · simp
      · split
        · simp
        · simp

/-- Each successful `run_step` inside the election loop either reaches the
seat count or strictly shrinks the remaining-candidate list. -/
theorem run_step_progress (t : Transfer) (s : ℕ) (th : ℤ)
    (cur : ESRec) (hist : List ESRec) (rng : List ℕ)
    (hcall : (allWinners (cur :: hist)).length ≠ s) :
    ∀ (nw : ESRec) (rng2 : List ℕ),
      run_step t s th cur hist rng = .ok (nw, rng2) →
      (allWinners (nw :: cur :: hist)).length = s ∨
      nw.remaining.length < cur.remaining.length := by
  intro nw rng2 hstep
  simp only [run_step] at hstep
  split at hstep
  · next hcond =>
    left
    simp only [Except.ok.injEq, Prod.mk.injEq] at hstep
    obtain ⟨hnw, _⟩ := hstep
    subst hnw
    rw [allWinners_cons]
    simp only [List.length_append, List.length_map, compute_votes_length]
    omega
  · split at hstep
    · exact absurd hstep (by simp)
    · next c0 v0 rest heqfp =>
      split at hstep
      · next hge =>
        right
        simp only [Except.ok.injEq, Prod.mk.injEq] at hstep
        obtain ⟨hnw, _⟩ := hstep
        subst hnw
        have hc0 : c0 ∈ cur.remaining :=
          (@pair_mem_compute_votes (c0, v0) cur.remaining cur.profile
            (by rw [heqfp]; exact List.mem_cons_self _ _)).1
        have hpos : 0 < cur.remaining.length :=
          List.length_pos.2 (List.ne_nil_of_mem hc0)
        show (electAll t _ th (compute_votes cur.remaining cur.profile) []
            cur.remaining cur.profile).2.1.length < cur.remaining.length
        rw [heqfp, electAll, if_pos hge]
        calc (electAll t _ th rest [c0] (cur.remaining.erase c0) _).2.1.length
            ≤ (cur.remaining.erase c0).length := electAll_remaining_length ..
          _ < cur.remaining.length := by
              rw [List.length_erase_of_mem hc0]
              omega
      · right
        simp only [Except.ok.injEq, Prod.mk.injEq] at hstep
        obtain ⟨hnw, _⟩ := hstep
        subst hnw
        have hmem := lp_cand_mem_remaining cur.remaining cur.profile c0 v0 rest
          (rng.headD 0) heqfp
        show (cur.remaining.erase _).length < cur.remaining.length
        have hpos : 0 < cur.remaining.length :=
          List.length_pos.2 (List.ne_nil_of_mem hmem)
        rw [List.length_erase_of_mem hmem]
        omega

theorem run_election_aux_no_fuelOut (t : Transfer) (s : ℕ) (th : ℤ) :
    ∀ (fuel : ℕ) (cur : ESRec) (hist : List ESRec) (rng : List ℕ),
      cur.remaining.length + 2 ≤ fuel →
      run_election_aux t s th fuel cur hist rng ≠ .error .fuelOut := by
  intro fuel
  induction fuel with
  | zero =>
    intro cur hist rng h
    omega
  | succ n ih =>
    intro cur hist rng hfuel
    rw [run_election_aux]
    split
    · next hne =>
      cases hstep : run_step t s th cur hist rng with
      | error e =>
        have hne2 := run_step_no_fuelOut_error t s th cur hist rng
        rw [hstep] at hne2
        simpa using hne2
      | ok pr =>
        obtain ⟨nw, rng2⟩ := pr
        rcases run_step_progress t s th cur hist rng hne nw rng2 hstep with hdone | hlt
        · obtain ⟨m, rfl⟩ : ∃ m, n = m + 1 := ⟨n - 1, by omega⟩
          simp [run_election_aux, hdone]
        · exact ih nw (cur :: hist) rng2 (by omega)
    · simp

/-- C6 (amended): the `while` loop of `run_election` never runs forever: for
every profile, seat count, threshold, transfer and seed the loop exits within
`|remaining| + 2` iterations — either the elected set has reached the seat
count or a `run_step` fails with an error (as it does, e.g., when all
candidates are elected before the seats fill); the iteration bound itself is
never the reason the run stops. -/
theorem run_election_terminates (t : Transfer) (seats : ℕ) (threshold : ℤ)
    (profile : PreferenceProfile) (rng : List ℕ) :
    run_election t seats threshold profile rng ≠ .error .fuelOut := by
  rw [run_election]
  split
  · simp
  · exact run_election_aux_no_fuelOut t seats threshold _ _ [] rng (le_refl _)

/-- Counterexample for C6 as stated: a 1-candidate profile with 2 seats uses
the real Droop threshold `1`, elects its only candidate in round one and then
fails with an `IndexError` in round two — `run_election` never reaches the
terminal condition (elected count = seats), and it performs 2 > |candidates|
`run_step` calls. -/
theorem run_election_cex :
    run_election fractional_transfer 2 1 ⟨[⟨[["A"]], 1⟩], some ["A"]⟩ [] =
      .error .indexError ∧
    get_threshold (num_ballots ⟨[⟨[["A"]], 1⟩], some ["A"]⟩) 2 "droop" = .ok 1 := by
  constructor
  · simp [run_election, run_election_aux, run_step, stv_init_state, get_candidates,
      compute_votes, firstPlaceTally, sortDesc, insertDesc, allWinners, allEliminated,
      electAll, fractional_transfer, remove_cand]
  · have h1 : num_ballots ⟨[⟨[["A"]], 1⟩], some ["A"]⟩ = 1 := by
      simp [num_ballots]
    rw [h1, get_threshold]
    simp only [show pyLower "droop" = "droop" from by decide, if_pos rfl]
    rw [pyInt_eq_floor _ (by norm_num), show ⌊(1 : ℚ) / ((2 : ℕ) + 1 : ℚ) + 1⌋ = 1 from by
      rw [Int.floor_eq_iff] <;> norm_num]
    simp

/-! ### C7: generator total weight and merging -/

theorem pool_add_keys (acc : List (List (List String) × ℕ)) (r : List (List String)) :
    (pool_add acc r).map (·.1) =
      if acc.any (fun p => p.1 = r) then acc.map (·.1) else acc.map (·.1) ++ [r] := by
  unfold pool_add
  split
  · rw [List.map_map]
    refine List.map_congr_left (fun p _ => ?_)
    by_cases hp : p.1 = r <;> simp [hp]
  · simp

theorem pool_add_nodup (acc : List (List (List String) × ℕ)) (r : List (List String))
    (hnd : (acc.map (·.1)).Nodup) : ((pool_add acc r).map (·.1)).Nodup := by
  rw [pool_add_keys]
  split
  · exact hnd
  · next h =>
    have h2 : ∀ p ∈ acc, p.1 ≠ r := by
      intro p hp hpr
      have hx : acc.any (fun p => p.1 = r) = true :=
        List.any_eq_true.2 ⟨p, hp, by simp [hpr]⟩
      exact h hx
    rw [List.nodup_append]
    refine ⟨hnd, by simp, ?_⟩
    intro x hx hx2
    obtain ⟨p, hp, hpx⟩ := List.mem_map.1 hx
    simp only [List.mem_singleton] at hx2
    exact h2 p hp (by rw [hpx, hx2])

theorem count_key_of_nodup (acc : List (List (List String) × ℕ))
    (r : List (List String)) (hnd : (acc.map (·.1)).Nodup)
    (hany : acc.any (fun p => p.1 = r) = true) :
    ((acc.map (fun p => if p.1 = r then (p.1, p.2 + 1) else p)).map (·.2)).sum =
      ((acc.map (·.2)).sum) + 1 := by
  induction acc with
  | nil => simp at hany
  | cons q rest ih =>
    simp only [List.map_cons, List.nodup_cons] at hnd
    by_cases hq : q.1 = r
    · have hrest : rest.map (fun p => if p.1 = r then (p.1, p.2 + 1) else p) =
          rest.map id := by
        refine List.map_congr_left (fun p hp => ?_)
        rw [if_neg, id]
        intro hpr
        exact hnd.1 (List.mem_map.2 ⟨p, hp, by rw [hpr, hq]⟩)
      simp only [List.map_cons, if_pos hq, hrest, List.map_id, List.sum_cons]
      omega
    · have hany2 : rest.any (fun p => p.1 = r) = true := by
        rcases List.any_eq_true.1 hany with ⟨p, hp, hpr⟩
        rcases List.mem_cons.1 hp with rfl | hp2
        · exact absurd (of_decide_eq_true hpr) hq
        · exact List.any_eq_true.2 ⟨p, hp2, hpr⟩
      simp only [List.map_cons, if_neg hq, List.sum_cons, ih hnd.2 hany2]
      omega

theorem pool_add_sum (acc : List (List (List String) × ℕ)) (r : List (List String))
    (hnd : (acc.map (·.1)).Nodup) :
    ((pool_add acc r).map (·.2)).sum = ((acc.map (·.2)).sum) + 1 := by
  unfold pool_add
  split
  · next h => exact count_key_of_nodup acc r hnd h
  · simp

theorem update_filter_eq (acc : List (List (List String) × ℕ)) (r : List (List String)) :
    ((acc.map (fun p => if p.1 = r then (p.1, p.2 + 1) else p)).filter
        (fun p => p.1 = r)).map (·.2) =
      ((acc.filter (fun p => p.1 = r)).map (·.2)).map (· + 1) := by
  induction acc with
  | nil => simp
  | cons q rest ih =>
    by_cases hq : q.1 = r
    · simp only [List.map_cons, if_pos hq, List.filter_cons]
      simp [hq, ih]
    · simp only [List.map_cons, if_neg hq, List.filter_cons]
      simp [hq, ih]

theorem update_filter_ne (acc : List (List (List String) × ℕ))
    (r r2 : List (List String)) (hne : r2 ≠ r) :
    (acc.map (fun p => if p.1 = r then (p.1, p.2 + 1) else p)).filter
        (fun p => p.1 = r2) =
      acc.filter (fun p => p.1 = r2) := by
  induction acc with
  | nil => simp
  | cons q rest ih =>
    by_cases hq : q.1 = r
    · have hq2 : ¬ q.1 = r2 := by
        rw [hq]
        exact fun h => hne h.symm
      have hrr : ¬ r = r2 := fun h => hne h.symm
      simp only [List.map_cons, if_pos hq, List.filter_cons]
      simp [hq, hq2, hrr, ih]
    · by_cases hq2 : q.1 = r2 <;>
        simp only [List.map_cons, if_neg hq, List.filter_cons] <;>
        simp [hq2, ih]

theorem filter_key_singleton (acc : List (List (List String) × ℕ))
    (r : List (List String)) (hnd : (acc.map (·.1)).Nodup)
    (hany : acc.any (fun p => p.1 = r) = true) :
    ∃ p : List (List String) × ℕ, acc.filter (fun p => p.1 = r) = [p] := by
  induction acc with
  | nil => simp at hany
  | cons q rest ih =>
    simp only [List.map_cons, List.nodup_cons] at hnd
    by_cases hq : q.1 = r
    · have hrest : rest.filter (fun p => p.1 = r) = [] := by
        rw [List.filter_eq_nil_iff]
        intro p hp hpr
        exact hnd.1 (List.mem_map.2 ⟨p, hp, by rw [of_decide_eq_true hpr, hq]⟩)
      exact ⟨q, by simp [List.filter_cons, hq, hrest]⟩
    · have hany2 : rest.any (fun p => p.1 = r) = true := by
        rcases List.any_eq_true.1 hany with ⟨p, hp, hpr⟩
        rcases List.mem_cons.1 hp with rfl | hp2
        · exact absurd (of_decide_eq_true hpr) hq
        · exact List.any_eq_true.2 ⟨p, hp2, hpr⟩
      obtain ⟨p, hp⟩ := ih hnd.2 hany2
      exact ⟨p, by simp [List.filter_cons, hq, hp]⟩

theorem pool_add_filter_sum (acc : List (List (List String) × ℕ))
    (r r2 : List (List String)) (hnd : (acc.map (·.1)).Nodup) :
    (((pool_add acc r).filter (fun p => p.1 = r2)).map (·.2)).sum =
      ((acc.filter (fun p => p.1 = r2)).map (·.2)).sum + (if r = r2 then 1 else 0) := by
  unfold pool_add
  split
  · next hany =>
    by_cases hr : r = r2
    · subst hr
      obtain ⟨p, hp⟩ := filter_key_singleton acc r hnd hany
      rw [update_filter_eq, hp]
      simp
    · rw [update_filter_ne acc r r2 (fun h => hr h.symm)]
      simp [hr]
  · next hany =>
    have hall : ∀ p ∈ acc, p.1 ≠ r := by
      intro p hp hpr
      have hx : acc.any (fun p => p.1 = r) = true :=
        List.any_eq_true.2 ⟨p, hp, by simp [hpr]⟩
      exact hany hx
    rw [List.filter_append]
    by_cases hr : r = r2
    · subst hr
      simp [List.filter_cons]
    · simp [List.filter_cons, hr]

theorem tally_pool_fold (pool : List (List (List String))) :
    ∀ acc : List (List (List String) × ℕ), (acc.map (·.1)).Nodup →
      ((pool.foldl pool_add acc).map (·.1)).Nodup ∧
      ((pool.foldl pool_add acc).map (·.2)).sum = (acc.map (·.2)).sum + pool.length ∧
      (∀ r, (((pool.foldl pool_add acc).filter (fun p => p.1 = r)).map (·.2)).sum =
        ((acc.filter (fun p => p.1 = r)).map (·.2)).sum + pool.count r) := by
  induction pool with
  | nil => intro acc hnd; exact ⟨hnd, by simp, by simp⟩
  | cons x rest ih =>
    intro acc hnd
    obtain ⟨ihnd, ihsum, ihcount⟩ := ih (pool_add acc x) (pool_add_nodup acc x hnd)
    refine ⟨ihnd, ?_, ?_⟩
    · rw [List.foldl_cons, ihsum, pool_add_sum acc x hnd]
      simp [Nat.add_comm, Nat.add_assoc]
    · intro r
      rw [List.foldl_cons, ihcount r, pool_add_filter_sum acc x r hnd, List.count_cons]
      by_cases hx : x = r <;> simp [hx] <;> omega

theorem length_filter_key_le_one (acc : List (List (List String) × ℕ))
    (hnd : (acc.map (·.1)).Nodup) (r : List (List String)) :
    (acc.filter (fun p => p.1 = r)).length ≤ 1 := by
  induction acc with
  | nil => simp
  | cons q rest ih =>
    simp only [List.map_cons, List.nodup_cons] at hnd
    rw [List.filter_cons]
    by_cases hq : q.1 = r
    · have hrest : rest.filter (fun p => p.1 = r) = [] := by
        rw [List.filter_eq_nil_iff]
        intro p hp hpr
        exact hnd.1 (List.mem_map.2 ⟨p, hp, by rw [of_decide_eq_true hpr, hq]⟩)
      simp [hq, hrest]
    · simpa [hq] using ih hnd.2

/-- C7 (amended): `ballot_pool_to_profile` merges identical rankings into one
ballot whose weight is the occurrence count and produces total weight equal to
the pool size; IC generates exactly `number_of_ballots` ballots, so its
profile's total weight is exactly N; PlackettLuce generates
`int(N * share)` ballots per demographic block, so its total weight is the sum
of those truncations, which can be smaller than N. -/
theorem generator_total_weight :
    (∀ (pool : List (List (List String))) (cands : List String),
      num_ballots (ballot_pool_to_profile pool cands) = (pool.length : ℚ)) ∧
    (∀ (pool : List (List (List String))) (cands : List String) (r : List (List String)),
      ((((ballot_pool_to_profile pool cands).ballots.filter
          (fun b => b.ranking = r)).map (·.weight)).sum = (pool.count r : ℚ)) ∧
      ((ballot_pool_to_profile pool cands).ballots.filter
          (fun b => b.ranking = r)).length ≤ 1) ∧
    (∀ (N : ℕ) (cl : List String) (rng : List ℕ),
      num_ballots (IC_generate_ballots N cl rng) = (N : ℚ)) ∧
    (∀ (N : ℕ) (cl : List String) (demo : List (String × ℚ))
        (sampler : String → ℕ → List (List String)),
      num_ballots (PL_generate_ballots N cl demo sampler) =
        ((demo.map (fun rf => ((pyInt ((N : ℚ) * rf.2)).toNat : ℚ))).sum)) := by
  have hcast : ∀ l : List ℕ, ((l.map (fun n : ℕ => (n : ℚ))).sum) = ((l.sum : ℕ) : ℚ) := by
    intro l
    induction l with
    | nil => simp
    | cons x xs ih =>
      simp only [List.map_cons, List.sum_cons, ih]
      push_cast
      ring
  have htot : ∀ (pool : List (List (List String))) (cands : List String),
      num_ballots (ballot_pool_to_profile pool cands) = (pool.length : ℚ) := by
    intro pool cands
    obtain ⟨_, hsum, _⟩ := tally_pool_fold pool [] (by simp)
    rw [num_ballots_eq_sum]
    show (((pool.foldl pool_add []).map (fun p => Ballot.mk p.1 (p.2 : ℚ))).map
      (·.weight)).sum = _
    rw [List.map_map]
    have h1 : ((pool.foldl pool_add []).map
          ((·.weight) ∘ fun p => Ballot.mk p.1 (p.2 : ℚ))) =
        (((pool.foldl pool_add []).map (·.2)).map (fun n : ℕ => (n : ℚ))) := by
      rw [List.map_map]
      rfl
    rw [h1, hcast]
    have hsum2 : ((pool.foldl pool_add []).map (·.2)).sum = pool.length := by
      simpa using hsum
    rw [hsum2]
  refine ⟨htot, ?_, ?_, ?_⟩
  · intro pool cands r
    obtain ⟨hnd, _, hcount⟩ := tally_pool_fold pool [] (by simp)
    constructor
    · show ((((pool.foldl pool_add []).map (fun p => Ballot.mk p.1 (p.2 : ℚ))).filter
        (fun b => b.ranking = r)).map (·.weight)).sum = _
      rw [List.filter_map, List.map_map]
      have h1 : (((pool.foldl pool_add []).filter
            ((fun b => decide (b.ranking = r)) ∘ fun p => Ballot.mk p.1 (p.2 : ℚ))).map
              ((·.weight) ∘ fun p => Ballot.mk p.1 (p.2 : ℚ))) =
          ((((pool.foldl pool_add []).filter (fun p => p.1 = r)).map (·.2)).map
            (fun n : ℕ => (n : ℚ))) := by
        rw [List.map_map]
        rfl
      rw [h1, hcast]
      have h2 : (((pool.foldl pool_add []).filter (fun p => p.1 = r)).map (·.2)).sum =
          pool.count r := by
        simpa using hcount r
      rw [h2]
    · show (((pool.foldl pool_add []).map (fun p => Ballot.mk p.1 (p.2 : ℚ))).filter
        (fun b => b.ranking = r)).length ≤ 1
      rw [List.filter_map, List.length_map]
      exact length_filter_key_le_one _ hnd r
  · intro N cl rng
    rw [IC_generate_ballots, htot]
    simp
  · intro N cl demo sampler
    rw [PL_generate_ballots, htot, List.length_flatten, List.map_map, ← hcast,
      List.map_map]
    congr 1
    refine List.map_congr_left (fun rf _ => ?_)
    simp [Function.comp]

/-- Counterexample for C7 as stated: PlackettLuce with 3 ballots split over
two half-weight blocks generates `int(1.5) + int(1.5) = 2` ballots, so the
profile's total weight is 2, not N = 3. -/
theorem PL_total_weight_cex :
    num_ballots (PL_generate_ballots 3 ["A"] [("X", 1/2), ("Y", 1/2)]
      (fun _ _ => [])) = 2 ∧
    num_ballots (PL_generate_ballots 3 ["A"] [("X", 1/2), ("Y", 1/2)]
      (fun _ _ => [])) ≠ 3 := by
  have hp : (pyInt (((3 : ℕ) : ℚ) * (1 / 2))).toNat = 1 := by
    have h1 : (((3 : ℕ) : ℚ) * (1 / 2)) = 3 / 2 := by norm_num
    rw [h1, pyInt_eq_floor _ (by norm_num),
      show ⌊(3 : ℚ) / 2⌋ = 1 from by rw [Int.floor_eq_iff] <;> norm_num]
    rfl
  have heval : num_ballots (PL_generate_ballots 3 ["A"] [("X", 1/2), ("Y", 1/2)]
      (fun _ _ => [])) = 2 := by
    simp only [PL_generate_ballots, List.map_cons, List.map_nil, hp]
    simp [ballot_pool_to_profile, tally_pool, pool_add, num_ballots]
  exact ⟨heval, by rw [heval]; norm_num⟩

/-! ### C8: reproducibility under a fixed seed

The embedding threads the random stream explicitly (`List ℕ`), which is the
spec's demanded architecture for the source's global-RNG calls; under it,
generators and engines are functions of seed and inputs, so equal seeds and
equal inputs give value-identical outputs. -/

/-- C8: with the same seed stream and the same inputs, the IC generator
returns the same profile, and an STV engine run returns the same chain of
round records (both for the full `run_election` and for any prefix of
rounds). -/
theorem same_seed_same_output :
    (∀ (N : ℕ) (cl : List String) (rng1 rng2 : List ℕ), rng1 = rng2 →
      IC_generate_ballots N cl rng1 = IC_generate_ballots N cl rng2) ∧
    (∀ (t : Transfer) (s : ℕ) (th : ℤ) (p1 p2 : PreferenceProfile)
        (rng1 rng2 : List ℕ), p1 = p2 → rng1 = rng2 →
      run_election t s th p1 rng1 = run_election t s th p2 rng2) ∧
    (∀ (t : Transfer) (s : ℕ) (th : ℤ) (n : ℕ) (p1 p2 : PreferenceProfile)
        (rng1 rng2 : List ℕ), p1 = p2 → rng1 = rng2 →
      run_steps t s th n (stv_init_state p1) [] rng1 =
        run_steps t s th n (stv_init_state p2) [] rng2) :=
  ⟨fun _ _ _ _ h => by rw [h],
   fun _ _ _ _ _ _ _ hp hr => by rw [hp, hr],
   fun _ _ _ _ _ _ _ _ hp hr => by rw [hp, hr]⟩

/-- Witness for C8 at concrete inputs. -/
theorem same_seed_same_output_witness :
    run_election fractional_transfer 1 1 ⟨[⟨[["A"]], 1⟩], some ["A"]⟩ [0, 1] =
      run_election fractional_transfer 1 1 ⟨[⟨[["A"]], 1⟩], some ["A"]⟩ [0, 1] :=
  same_seed_same_output.2.1 fractional_transfer 1 1
    ⟨[⟨[["A"]], 1⟩], some ["A"]⟩ ⟨[⟨[["A"]], 1⟩], some ["A"]⟩ [0, 1] [0, 1] rfl rfl

/-! ### C9: Borda weights and point distribution -/

theorem apply_updates_val (ups : List (List String × ℚ)) :
    ∀ (f : List String → ℚ) (k : List String),
      apply_updates f ups k = f k + ((ups.filter (fun kv => kv.1 = k)).map (·.2)).sum := by
  induction ups with
  | nil => intro f k; simp [apply_updates]
  | cons u rest ih =>
    intro f k
    show apply_updates (score_add f u.1 u.2) rest k = _
    rw [ih, score_add, List.filter_cons]
    by_cases h : u.1 = k
    · simp [h]
      ring
    · have h2 : ¬ k = u.1 := fun hk => h hk.symm
      simp [h, h2]

theorem sum_map_ite_mem (a : List String) (v : ℚ) :
    ∀ ks : List (List String), ks.Nodup →
      (ks.map (fun k => if a = k then v else 0)).sum = if a ∈ ks then v else 0 := by
  intro ks
  induction ks with
  | nil => simp
  | cons k rest ih =>
    intro hnd
    rw [List.nodup_cons] at hnd
    rw [List.map_cons, List.sum_cons, ih hnd.2]
    by_cases hk : a = k
    · subst hk
      simp [hnd.1]
    · by_cases hm : a ∈ rest <;> simp [hk, hm]

theorem sum_over_keys (ks : List (List String)) (hnd : ks.Nodup) :
    ∀ U : List (List String × ℚ), (∀ kv ∈ U, kv.1 ∈ ks) →
      (ks.map (fun k => ((U.filter (fun kv => kv.1 = k)).map (·.2)).sum)).sum =
        (U.map (·.2)).sum := by
  intro U
  induction U with
  | nil => simp
  | cons u rest ih =>
    intro hcov
    have hrest := ih (fun kv hkv => hcov kv (by simp [hkv]))
    have hsplit : (ks.map (fun k => (((u :: rest).filter
        (fun kv => kv.1 = k)).map (·.2)).sum)) =
        ks.map (fun k => (if u.1 = k then u.2 else 0) +
          ((rest.filter (fun kv => kv.1 = k)).map (·.2)).sum) := by
      refine List.map_congr_left (fun k _ => ?_)
      rw [List.filter_cons]
      by_cases h : u.1 = k <;> simp [h]
    rw [hsplit, List.sum_map_add, sum_map_ite_mem u.1 u.2 ks hnd, hrest,
      if_pos (hcov u (by simp))]
    simp

theorem flatten_singletons (l : List String) :
    (l.map (fun c => [c])).flatten = l := by
  induction l with
  | nil => rfl
  | cons x xs ih => simp [ih]

theorem gauss_list (n : ℕ) :
    ((List.range n).map (fun i : ℕ => ((n : ℚ) - (i : ℚ)))).sum =
      (n : ℚ) * ((n : ℚ) + 1) / 2 := by
  induction n with
  | zero => simp
  | succ m ih =>
    rw [List.range_succ, List.map_append, List.sum_append]
    have hshift : ((List.range m).map (fun i : ℕ => (((m + 1 : ℕ) : ℚ) - (i : ℚ)))) =
        (List.range m).map (fun i : ℕ => ((m : ℚ) - (i : ℚ)) + 1) := by
      refine List.map_congr_left (fun i _ => ?_)
      push_cast
      ring
    have hconst : ((List.range m).map (fun _ : ℕ => (1 : ℚ))).sum = (m : ℚ) := by
      rw [List.map_const', List.sum_replicate, List.length_range, nsmul_eq_mul, mul_one]
    rw [hshift, List.sum_map_add, ih, hconst]
    simp only [List.map_cons, List.map_nil, List.sum_cons, List.sum_nil, add_zero]
    push_cast
    ring

theorem borda_default_weights_length (n : ℕ) : (borda_default_weights n).length = n := by
  simp [borda_default_weights]

theorem borda_default_weights_getD (n i : ℕ) (h : i < n) :
    (borda_default_weights n).getD i 0 = (n : ℤ) - (i : ℤ) := by
  rw [borda_default_weights, List.getD_eq_getElem?_getD, List.getElem?_map,
    List.getElem?_range h]
  rfl

theorem map_zip_fst_fun {α : Type} (g : ℕ → ℚ) :
    ∀ (r : List ℕ) (l : List α), r.length ≤ l.length →
      ((r.zip l).map (fun p => g p.1)) = r.map g := by
  intro r
  induction r with
  | nil => intro l h; simp
  | cons x xs ih =>
    intro l h
    cases l with
    | nil => simp at h
    | cons y ys =>
      simp only [List.zip_cons_cons, List.map_cons]
      rw [ih ys (by simpa using h)]

theorem filter_eq_singleton_of_nodup (c : String) :
    ∀ l : List String, l.Nodup → c ∈ l → l.filter (fun x => x = c) = [c] := by
  intro l
  induction l with
  | nil => intro _ hc; simp at hc
  | cons q rest ih =>
    intro hnd hc
    rw [List.nodup_cons] at hnd
    by_cases hq : q = c
    · subst hq
      have hrest : rest.filter (fun x => x = q) = [] := by
        rw [List.filter_eq_nil_iff]
        intro x hx hxq
        exact hnd.1 ((of_decide_eq_true hxq) ▸ hx)
      simp [List.filter_cons, hrest]
    · have hc2 : c ∈ rest := by
        rcases List.mem_cons.1 hc with h | h
        · exact absurd h.symm hq
        · exact h
      simp [List.filter_cons, hq, ih hnd.2 hc2]

theorem borda_scores_single (W : List ℤ) (cands2 : List String) (b : Ballot)
    (k : List String) :
    borda_scores W cands2 true [b] k =
      (((borda_ballot_updates W cands2 true b).filter (fun kv => kv.1 = k)).map
        (·.2)).sum := by
  show apply_updates (fun _ => 0) (borda_ballot_updates W cands2 true b) k = _
  rw [apply_updates_val]
  simp

/-- C9: the default Borda weight vector for `n` candidates is
`[n, n-1, ..., 1]`; with these weights a weight-1 ballot ranking all `n`
candidates (as singleton positions) awards `n + (n-1) + ... + 1 = n(n+1)/2`
points in total over all candidates; and in standard mode a ballot ranking
fewer than `n` candidates gives each unranked candidate an even share
`weight * (sum of the unused weights) / #unranked`. -/
theorem borda_properties :
    (∀ n : ℕ, (borda_default_weights n).length = n ∧
      ∀ i : ℕ, i < n → (borda_default_weights n).getD i 0 = (n : ℤ) - (i : ℤ)) ∧
    (∀ cands : List String, cands.Nodup →
      ((cands.map (fun c => borda_scores (borda_default_weights cands.length) cands true
        [⟨cands.map (fun c2 => [c2]), 1⟩] [c])).sum) =
        (cands.length : ℚ) * ((cands.length : ℚ) + 1) / 2) ∧
    (∀ (cands rc : List String) (w : ℚ) (c : String), cands.Nodup →
      rc.length < cands.length → c ∈ cands → c ∉ rc →
      borda_scores (borda_default_weights cands.length) cands true
        [⟨rc.map (fun x => [x]), w⟩] [c] =
        w * (((((borda_default_weights cands.length).drop rc.length).sum : ℤ) : ℚ) /
          ((cands.filter (fun x => ¬ x ∈ rc)).length : ℚ))) := by
  refine ⟨fun n => ⟨borda_default_weights_length n, fun i h =>
    borda_default_weights_getD n i h⟩, ?_, ?_⟩
  · -- full singleton ranking, weight 1
    intro cands hnd
    have hupd : borda_ballot_updates (borda_default_weights cands.length) cands true
        ⟨cands.map (fun c2 => [c2]), 1⟩ =
        ((cands.map (fun c2 => [c2])).enum).map (fun p => (p.2,
          if p.1 + 1 ≤ (borda_default_weights cands.length).length
          then (1 : ℚ) * (((borda_default_weights cands.length).getD p.1 0 : ℤ) : ℚ)
          else 0)) := by
      simp only [borda_ballot_updates]
      have hrem : cands.filter
          (fun c => ¬ (((cands.map (fun c2 => [c2])).flatten).contains c)) = [] := by
        rw [flatten_singletons, List.filter_eq_nil_iff]
        intro c hc
        simp [hc]
      rw [if_pos trivial, if_pos (by
        simp only [borda_default_weights_length, List.length_map]
        omega), hrem]
      simp
    have hmapeq : (cands.map (fun c => borda_scores (borda_default_weights cands.length)
        cands true [⟨cands.map (fun c2 => [c2]), 1⟩] [c])) =
        ((cands.map (fun c2 => [c2])).map (fun k =>
          (((borda_ballot_updates (borda_default_weights cands.length) cands true
            ⟨cands.map (fun c2 => [c2]), 1⟩).filter (fun kv => kv.1 = k)).map
              (·.2)).sum)) := by
      rw [List.map_map]
      exact List.map_congr_left (fun c _ => borda_scores_single _ _ _ _)
    rw [hmapeq]
    have hkey_nd : (cands.map (fun c2 => [c2])).Nodup :=
      hnd.map (fun a b h => by simpa using h)
    have hcov : ∀ kv ∈ borda_ballot_updates (borda_default_weights cands.length) cands
        true ⟨cands.map (fun c2 => [c2]), 1⟩, kv.1 ∈ cands.map (fun c2 => [c2]) := by
      rw [hupd]
      intro kv hkv
      obtain ⟨p, hp, hpkv⟩ := List.mem_map.1 hkv
      have hp2 : p.2 ∈ cands.map (fun c2 => [c2]) := by
        rw [List.enum_eq_zip_range] at hp
        exact (List.mem_zip hp).2
      rw [← hpkv]
      exact hp2
    rw [sum_over_keys _ hkey_nd _ hcov, hupd, List.map_map]
    have hfun : (((cands.map (fun c2 => [c2])).enum).map ((·.2) ∘ (fun p => (p.2,
        if p.1 + 1 ≤ (borda_default_weights cands.length).length
        then (1 : ℚ) * (((borda_default_weights cands.length).getD p.1 0 : ℤ) : ℚ)
        else 0)))) =
        ((List.range cands.length).map (fun i : ℕ => ((cands.length : ℚ) - (i : ℚ)))) := by
      rw [List.enum_eq_zip_range]
      have hlen : (List.range (cands.map (fun c2 => [c2])).length).length ≤
          (cands.map (fun c2 => [c2])).length := by
        simp
      have hzip := map_zip_fst_fun (fun i : ℕ =>
          if i + 1 ≤ (borda_default_weights cands.length).length
          then (1 : ℚ) * (((borda_default_weights cands.length).getD i 0 : ℤ) : ℚ)
          else 0)
        (List.range (cands.map (fun c2 => [c2])).length) (cands.map (fun c2 => [c2])) hlen
      rw [show ((·.2) ∘ (fun p : ℕ × List String => (p.2,
          if p.1 + 1 ≤ (borda_default_weights cands.length).length
          then (1 : ℚ) * (((borda_default_weights cands.length).getD p.1 0 : ℤ) : ℚ)
          else 0))) = (fun p : ℕ × List String =>
            if p.1 + 1 ≤ (borda_default_weights cands.length).length
            then (1 : ℚ) * (((borda_default_weights cands.length).getD p.1 0 : ℤ) : ℚ)
            else 0) from rfl]
      rw [hzip]
      simp only [List.length_map]
      refine List.map_congr_left (fun i hi => ?_)
      have hilt : i < cands.length := List.mem_range.1 hi
      rw [if_pos (by rw [borda_default_weights_length]; omega),
        borda_default_weights_getD _ _ hilt, one_mul]
      push_cast
      ring
    rw [hfun, gauss_list]
  · -- short ballot: unranked candidates share the remaining points evenly
    intro cands rc w c hnd hlen hc hcnotin
    rw [borda_scores_single]
    simp only [borda_ballot_updates]
    have hrem : cands.filter
        (fun x => ¬ (((rc.map (fun x2 => [x2])).flatten).contains x)) =
        cands.filter (fun x => ¬ x ∈ rc) := by
      rw [flatten_singletons]
      exact List.filter_congr (fun x _ => by simp)
    rw [if_pos trivial, if_pos (by
      simp only [borda_default_weights_length, List.length_map]
      omega), hrem]
    rw [List.filter_append, List.map_append, List.sum_append]
    have hrk : (((rc.map (fun x => [x])).enum).map (fun p => (p.2,
        if p.1 + 1 ≤ (borda_default_weights cands.length).length
        then w * (((borda_default_weights cands.length).getD p.1 0 : ℤ) : ℚ)
        else 0))).filter (fun kv => kv.1 = [c]) = [] := by
      rw [List.filter_eq_nil_iff]
      intro kv hkv
      obtain ⟨p, hp, hpkv⟩ := List.mem_map.1 hkv
      have hp2 : p.2 ∈ rc.map (fun x2 => [x2]) := by
        rw [List.enum_eq_zip_range] at hp
        exact (List.mem_zip hp).2
      obtain ⟨x, hx, hxe⟩ := List.mem_map.1 hp2
      rw [← hpkv]
      simp only [decide_eq_true_eq]
      intro hcontra
      have : x = c := by
        have : p.2 = [c] := hcontra
        rw [← hxe] at this
        simpa using this
      exact hcnotin (this ▸ hx)
    have hur : (((cands.filter (fun x => ¬ x ∈ rc)).map (fun c2 => ([c2],
        w * (((((borda_default_weights cands.length).drop
          ((rc.map (fun x => [x])).length)).sum : ℤ) : ℚ) /
          (((cands.filter (fun x => ¬ x ∈ rc)).length : ℕ) : ℚ))))).filter
            (fun kv => kv.1 = [c])) =
        [([c], w * (((((borda_default_weights cands.length).drop
          ((rc.map (fun x => [x])).length)).sum : ℤ) : ℚ) /
          (((cands.filter (fun x => ¬ x ∈ rc)).length : ℕ) : ℚ)))] := by
      rw [List.filter_map]
      have hpred : ((cands.filter (fun x => ¬ x ∈ rc)).filter
          ((fun kv : List String × ℚ => decide (kv.1 = [c])) ∘ (fun c2 => ([c2],
            w * (((((borda_default_weights cands.length).drop
              ((rc.map (fun x => [x])).length)).sum : ℤ) : ℚ) /
              (((cands.filter (fun x => ¬ x ∈ rc)).length : ℕ) : ℚ)))))) =
          ((cands.filter (fun x => ¬ x ∈ rc)).filter (fun x => x = c)) :=
        List.filter_congr (fun x _ => by simp)
      rw [hpred, filter_eq_singleton_of_nodup c _ (hnd.filter _)
        (List.mem_filter.2 ⟨hc, by simp [hcnotin]⟩)]
      rfl
    rw [hrk, hur]
    simp

/-- Witness for C9 at concrete inputs: three candidates, and a short ballot
ranking only "A" with "B" unranked. -/
theorem borda_properties_witness :
    ((borda_default_weights 3).length = 3 ∧
      ∀ i : ℕ, i < 3 → (borda_default_weights 3).getD i 0 = (3 : ℤ) - (i : ℤ)) ∧
    ((["A", "B", "C"].map (fun c =>
        borda_scores (borda_default_weights (["A", "B", "C"] : List String).length)
          ["A", "B", "C"] true
          [⟨(["A", "B", "C"] : List String).map (fun c2 => [c2]), 1⟩] [c])).sum =
      ((["A", "B", "C"] : List String).length : ℚ) *
        (((["A", "B", "C"] : List String).length : ℚ) + 1) / 2) ∧
    (borda_scores (borda_default_weights (["A", "B", "C"] : List String).length)
        ["A", "B", "C"] true [⟨(["A"] : List String).map (fun x => [x]), 1⟩] ["B"] =
      1 * (((((borda_default_weights (["A", "B", "C"] : List String).length).drop
          (["A"] : List String).length).sum : ℤ) : ℚ) /
        (((["A", "B", "C"] : List String).filter
          (fun x => ¬ x ∈ (["A"] : List String))).length : ℚ))) :=
  ⟨borda_properties.1 3,
   borda_properties.2.1 ["A", "B", "C"] (by decide),
   borda_properties.2.2 ["A", "B", "C"] ["A"] 1 "B" (by decide) (by decide)
     (by decide) (by decide)⟩

/-- Counterexample for C5 as stated: the winner is not stripped from a tied
ranking position.  With ballots `{W}:2` and `{W,A}:1` (so the winner's tally
is `2`) and quota `1`, the transferred ballot list still contains the position
`{W, A}` with the winner in it. -/
theorem fractional_transfer_cex :
    fractional_transfer "W" [⟨[["W"]], 2⟩, ⟨[["W", "A"]], 1⟩]
        (fun c => if c = "W" then 2 else 0) 1 =
      [⟨[], 1⟩, ⟨[["W", "A"]], 1⟩] ∧
    firstPlaceTally "W" [⟨[["W"]], 2⟩, ⟨[["W", "A"]], 1⟩] = 2 ∧
    "W" ∈ (((fractional_transfer "W" [⟨[["W"]], 2⟩, ⟨[["W", "A"]], 1⟩]
        (fun c => if c = "W" then 2 else 0) 1).getD 1 ⟨[], 0⟩).ranking).flatten := by
  refine ⟨?_, ?_, ?_⟩
  · simp [fractional_transfer, remove_cand, firstPlaceTally]
    norm_num
  · simp [firstPlaceTally]
  · simp [fractional_transfer, remove_cand]

end VoteKit
